import Mathlib

/-!
Verification of the tabletop-notetaker transcript-to-summary pipeline.

The Python source is shallowly embedded here.  Text is modelled as
`List Char` (`Str`); Python string operations (`strip`, `lower`,
`str.find`, slicing, `split`, `join`, `re.findall(r"\b\w+\b", ...)`,
`re.split(r"[.!?]+", ...)`) are translated into executable list
functions.  Python dicts that are used as ordered associative maps
(`word_freq` in `_extract_keywords`) become insertion-ordered
association lists; Python's stable `sorted(..., reverse=True)` becomes
a stable insertion sort whose stability is proved below.

CPython `set` iteration order is hash-dependent and therefore
unspecified; `list(speakers)` in `_extract_summary_data` is modelled by
an enumeration parameter `enum` that may return the set's elements in
any order (the set itself is represented canonically by its
insertion-ordered, duplicate-free list of elements).

File and audio-device I/O are external effects: writing a file is
modelled by the content that would be written, and the audio stream is
modelled as succeeding (the recording-state claims do not depend on
device failures).
-/

namespace Notetaker

/-- Text is modelled as a list of characters. -/
abbrev Str := List Char

/-- Coerce a Lean string literal to the character-list model. -/
def strOf (s : String) : Str := s.data

/-- The whitespace test of Python's `str.strip()` (ASCII whitespace). -/
def isPyWs (c : Char) : Bool :=
  c == ' ' || c == '\t' || c == '\n' || c == '\r' || c == '\x0b' || c == '\x0c'

/-- Python `str.strip()`: remove leading and trailing whitespace. -/
def pstrip (l : Str) : Str :=
  ((l.dropWhile isPyWs).reverse.dropWhile isPyWs).reverse

/-- Python `str.lower()` (ASCII case folding). -/
def lower (l : Str) : Str := l.map Char.toLower

/-- A word character of the regex `\w` (alphanumeric or underscore). -/
def isWordChar (c : Char) : Bool := c.isAlphanum || c == '_'

/-- State machine for `re.findall(r"\b\w+\b", s)`: `cur` is the
reversed current run of word characters. -/
def tokenizeAux : Str → Str → List Str
  | [], cur => if cur.isEmpty then [] else [cur.reverse]
  | c :: cs, cur =>
    if isWordChar c then tokenizeAux cs (c :: cur)
    else if cur.isEmpty then tokenizeAux cs []
    else cur.reverse :: tokenizeAux cs []

/-- `re.findall(r"\b\w+\b", s)`: the maximal runs of word characters. -/
def tokenizeWords (l : Str) : List Str := tokenizeAux l []

/-- A sentence terminator of the regex `[.!?]+`. -/
def isTerm (c : Char) : Bool := c == '.' || c == '!' || c == '?'

/-- State machine for `re.split(r"[.!?]+", s)`: `cur` is the reversed
current part, `inRun` records that the previous character was a
sentence terminator (so further terminators extend the same split). -/
def splitRunsAux : Str → Str → Bool → List Str
  | [], cur, _ => [cur.reverse]
  | c :: cs, cur, inRun =>
    if isTerm c then
      if inRun then splitRunsAux cs [] true
      else cur.reverse :: splitRunsAux cs [] true
    else splitRunsAux cs (c :: cur) false

/-- `re.split(r"[.!?]+", s)`: split on maximal nonempty runs of
sentence terminators. -/
def splitRuns (l : Str) : List Str := splitRunsAux l [] false

/-- `sep.join(parts)` for Python strings. -/
def joinSep (sep : Str) : List Str → Str
  | [] => []
  | [x] => x
  | x :: xs => x ++ sep ++ joinSep sep xs

/-- `content.split(c)` for a single-character separator. -/
def splitOnChar (c : Char) : Str → List Str
  | [] => [[]]
  | x :: xs =>
    if x = c then
      [] :: splitOnChar c xs
    else
      match splitOnChar c xs with
      | [] => [[x]]
      | l :: ls => (x :: l) :: ls

/-- Boolean contiguous-substring test (Python's `pat in s`). -/
def containsSub (pat : Str) : Str → Bool
  | [] => pat.isEmpty
  | c :: cs => pat.isPrefixOf (c :: cs) || containsSub pat cs

/-- `line.find("]:")`: index of the first occurrence of `]` immediately
followed by `:`, or `none` when there is no such occurrence. -/
def findCC : Str → Option Nat
  | [] => none
  | c :: cs =>
    if c = ']' ∧ cs.take 1 = [':'] then some 0
    else (findCC cs).map (· + 1)

/-- Render a natural number the way Python's `str()` renders an `int`. -/
def natToStr (n : Nat) : Str := (Nat.repr n).data

/-- Render an integer the way Python's `str()` renders an `int`. -/
def intToStr (n : Int) : Str := (Int.repr n).data

/-! ## Data model -/

/-- One attributed span of speech (`segment` dicts in the Python code).
`speaker` is the value of `segment.get('speaker', 'Unknown')` and
`text` the value of `segment.get('text', '')`; the numeric fields are
exact in all code paths the claims mention, so they are modelled as
integers. The Python key `end` is the field `stop` here. -/
structure Segment where
  speaker : Str
  text : Str
  start : Int
  stop : Int
deriving DecidableEq, Repr

/-- One recording's transcript (`transcript` dicts in the Python code).
`duration`/`filePath` model `transcript.get('duration', ...)` and
`transcript.get('file_path', ...)`: `none` when the key is absent. -/
structure Transcript where
  segments : List Segment
  duration : Option Int
  filePath : Option Str
deriving DecidableEq, Repr

/-- The derived summary view returned by
`SummarizationService._extract_summary_data`. -/
structure SummaryData where
  speakers : List Str
  totalSegments : Nat
  keyPoints : List Str
  actionItems : List Str
  keywords : List Str
  summaryText : Str
deriving DecidableEq, Repr

/-! ## SummarizationService -/

/-- The stop-word set `self.common_words` of `SummarizationService`,
verbatim from the constructor. -/
def commonWords : List Str :=
  [strOf "the", strOf "a", strOf "an", strOf "and", strOf "or", strOf "but",
   strOf "in", strOf "on", strOf "at", strOf "to", strOf "for", strOf "of",
   strOf "with", strOf "by", strOf "is", strOf "are", strOf "was",
   strOf "were", strOf "be", strOf "been", strOf "being", strOf "have",
   strOf "has", strOf "had", strOf "do", strOf "does", strOf "did",
   strOf "will", strOf "would", strOf "could", strOf "should", strOf "may",
   strOf "might", strOf "must", strOf "can", strOf "shall"]

/-- The keyword filter of `_extract_keywords`:
`len(word) > 3 and word not in self.common_words`. -/
def passFilter (w : Str) : Bool :=
  decide (3 < w.length) && !(decide (w ∈ commonWords))

/-- `word_freq[word] = word_freq.get(word, 0) + 1` on an
insertion-ordered association list (a Python dict). -/
def bump : List (Str × Nat) → Str → List (Str × Nat)
  | [], w => [(w, 1)]
  | (k, n) :: rest, w =>
    if k = w then (k, n + 1) :: rest else (k, n) :: bump rest w

/-- The frequency-counting loop of `_extract_keywords`. -/
def wordFreq (ws : List Str) : List (Str × Nat) :=
  ws.foldl (fun m w => if passFilter w then bump m w else m) []

/-- Stable insertion into a descending-by-frequency list: the inserted
element goes before the first element whose count is not larger.  An
element inserted later (hence earlier in the original list) therefore
stays before all equal-count elements, which is exactly the stability
guarantee of Python's `sorted(..., key=lambda x: x[1], reverse=True)`. -/
def insertDesc (x : Str × Nat) : List (Str × Nat) → List (Str × Nat)
  | [] => [x]
  | y :: ys => if y.2 ≤ x.2 then x :: y :: ys else y :: insertDesc x ys

/-- Stable descending sort by count, modelling
`sorted(word_freq.items(), key=lambda x: x[1], reverse=True)`. -/
def isortDesc : List (Str × Nat) → List (Str × Nat)
  | [] => []
  | x :: xs => insertDesc x (isortDesc xs)

/-- `SummarizationService._extract_keywords`. -/
def extractKeywords (text : Str) : List Str :=
  ((isortDesc (wordFreq (tokenizeWords (lower text)))).filter
    (fun p => 1 < p.2)).map Prod.fst

/-- The action-item marker substrings of `_extract_summary_data`. -/
def actionWords : List Str :=
  [strOf "todo", strOf "need to", strOf "should", strOf "will", strOf "action"]

/-- `any(word in text.lower() for word in [...])`. -/
def hasActionWord (text : Str) : Bool :=
  actionWords.any (fun w => containsSub w (lower text))

/-- Sentences of a text that survive the `len(sentence) > 20` filter
after splitting on `[.!?]+` and stripping, in original order. -/
def substantialSentences (t : Str) : List Str :=
  ((splitRuns t).map pstrip).filter (fun s => decide (20 < s.length))

/-- `speakers.add(speaker)` on the canonical representation of a CPython
set: the insertion-ordered duplicate-free list of its elements. -/
def setAdd (l : List Str) (s : Str) : List Str :=
  if s ∈ l then l else l ++ [s]

/-- Accumulator of the segment loop in `_extract_summary_data`. -/
structure ExtractAcc where
  allText : List Str
  speakers : List Str
  keyPoints : List Str
  actionItems : List Str
deriving DecidableEq, Repr

/-- One iteration of the segment loop in `_extract_summary_data`. -/
def stepSeg (acc : ExtractAcc) (seg : Segment) : ExtractAcc :=
  let text := pstrip seg.text
  if text = [] then acc
  else
    { allText := acc.allText ++ [text]
      speakers := setAdd acc.speakers seg.speaker
      keyPoints := acc.keyPoints ++ substantialSentences text
      actionItems := acc.actionItems ++
        (if hasActionWord text then [seg.speaker ++ strOf ": " ++ text] else []) }

/-- The whole segment loop of `_extract_summary_data`. -/
def extractLoop (segs : List Segment) : ExtractAcc :=
  segs.foldl stepSeg ⟨[], [], [], []⟩

/-- `SummarizationService._generate_summary_text`. -/
def generateSummaryText (textSegments : List Str) : Str :=
  let fullText := joinSep [' '] textSegments
  let sentences := substantialSentences fullText
  joinSep [' ']
    ((sentences.take 5).foldl
      (fun acc s => if acc.length < 3 then acc ++ [s] else acc) [])

/-- `SummarizationService._extract_summary_data`.  `enum` models the
unspecified iteration order of `list(speakers)` over a CPython set; a
faithful enumeration returns some permutation of the set's elements. -/
def extractSummaryData (enum : List Str → List Str) (segs : List Segment) :
    SummaryData :=
  let acc := extractLoop segs
  { speakers := enum acc.speakers
    totalSegments := segs.length
    keyPoints := acc.keyPoints.take 10
    actionItems := acc.actionItems.take 5
    keywords := (extractKeywords (joinSep [' '] acc.allText)).take 15
    summaryText := generateSummaryText acc.allText }

/-- The `Duration:` field value: `transcript.get('duration', 'Unknown')`. -/
def durStr (t : Transcript) : Str :=
  match t.duration with
  | some d => intToStr d
  | none => strOf "Unknown"

/-- The line list built by `_format_text_summary` (the returned string
is these lines joined with newlines).  `dateStr` is the rendered
`datetime.now()` timestamp, which is an external input here. -/
def textSummaryLines (data : SummaryData) (t : Transcript) (dateStr : Str) :
    List Str :=
  [strOf "MEETING SUMMARY", List.replicate 50 '=',
   strOf "Date: " ++ dateStr,
   strOf "Duration: " ++ durStr t ++ strOf " seconds", []]
  ++ [strOf "PARTICIPANTS:"]
  ++ data.speakers.map (fun sp => strOf "  - " ++ sp)
  ++ [[]]
  ++ (if data.summaryText = [] then []
      else [strOf "SUMMARY:", data.summaryText, []])
  ++ (if data.keyPoints = [] then []
      else [strOf "KEY POINTS:"]
        ++ (List.enumFrom 1 data.keyPoints).map
            (fun p => strOf "  " ++ natToStr p.1 ++ strOf ". " ++ p.2)
        ++ [[]])
  ++ (if data.actionItems = [] then []
      else [strOf "ACTION ITEMS:"]
        ++ (List.enumFrom 1 data.actionItems).map
            (fun p => strOf "  " ++ natToStr p.1 ++ strOf ". " ++ p.2)
        ++ [[]])
  ++ (if data.keywords = [] then []
      else [strOf "TOPICS/KEYWORDS:", joinSep (strOf ", ") data.keywords])

/-- `SummarizationService._format_text_summary`. -/
def formatTextSummary (data : SummaryData) (t : Transcript) (dateStr : Str) :
    Str :=
  joinSep ['\n'] (textSummaryLines data t dateStr)

/-- The line list built by `_format_markdown_summary`. -/
def mdSummaryLines (data : SummaryData) (t : Transcript) (dateStr : Str) :
    List Str :=
  [strOf "# Meeting Summary", [],
   strOf "**Date:** " ++ dateStr,
   strOf "**Duration:** " ++ durStr t ++ strOf " seconds", []]
  ++ [strOf "## Participants"]
  ++ data.speakers.map (fun sp => strOf "- " ++ sp)
  ++ [[]]
  ++ (if data.summaryText = [] then []
      else [strOf "## Summary", data.summaryText, []])
  ++ (if data.keyPoints = [] then []
      else [strOf "## Key Points"]
        ++ data.keyPoints.map (fun p => strOf "- " ++ p) ++ [[]])
  ++ (if data.actionItems = [] then []
      else [strOf "## Action Items"]
        ++ data.actionItems.map (fun p => strOf "- " ++ p) ++ [[]])
  ++ (if data.keywords = [] then []
      else [strOf "## Topics/Keywords", joinSep (strOf ", ") data.keywords])

/-- `SummarizationService._format_markdown_summary`. -/
def formatMarkdownSummary (data : SummaryData) (t : Transcript)
    (dateStr : Str) : Str :=
  joinSep ['\n'] (mdSummaryLines data t dateStr)

/-- JSON string escaping as done by `json.dumps(..., ensure_ascii=False)`:
backslash, quote and the control characters get escaped, everything else
is passed through. -/
def jsonEscapeChar (c : Char) : Str :=
  if c = '\\' then ['\\', '\\']
  else if c = '"' then ['\\', '"']
  else if c = '\n' then ['\\', 'n']
  else if c = '\t' then ['\\', 't']
  else if c = '\r' then ['\\', 'r']
  else if c = '\x08' then ['\\', 'b']
  else if c = '\x0c' then ['\\', 'f']
  else if c.toNat < 32 then
    strOf "\\u00" ++ [(Nat.digitChar (c.toNat / 16)), (Nat.digitChar (c.toNat % 16))]
  else [c]

/-- A JSON string literal for `json.dumps`. -/
def jsonStr (s : Str) : Str :=
  '"' :: (s.flatMap jsonEscapeChar) ++ ['"']

/-- A JSON array of strings at the given indent, formatted the way
`json.dumps(..., indent=2)` formats a list. -/
def jsonStrList (indent : Str) (l : List Str) : Str :=
  match l with
  | [] => ['[', ']']
  | _ =>
    ['[', '\n']
    ++ joinSep (strOf ",\n")
        (l.map (fun s => indent ++ strOf "  " ++ jsonStr s))
    ++ '\n' :: indent ++ [']']

/-- `SummarizationService._format_json_summary`: `json.dumps` of the
fixed summary object with `indent=2, ensure_ascii=False`.  `dateStr`
is the `datetime.now().isoformat()` value. -/
def formatJsonSummary (data : SummaryData) (t : Transcript) (dateStr : Str) :
    Str :=
  strOf "\x7b\n  \"metadata\": \x7b\n    \"date\": " ++ jsonStr dateStr
  ++ strOf ",\n    \"duration\": "
  ++ (match t.duration with
      | some d => intToStr d
      | none => ['0'])
  ++ strOf ",\n    \"file_path\": "
  ++ jsonStr (match t.filePath with
      | some p => p
      | none => [])
  ++ strOf "\n  \x7d,\n  \"participants\": "
  ++ jsonStrList (strOf "  ") data.speakers
  ++ strOf ",\n  \"summary\": " ++ jsonStr data.summaryText
  ++ strOf ",\n  \"key_points\": " ++ jsonStrList (strOf "  ") data.keyPoints
  ++ strOf ",\n  \"action_items\": "
  ++ jsonStrList (strOf "  ") data.actionItems
  ++ strOf ",\n  \"keywords\": " ++ jsonStrList (strOf "  ") data.keywords
  ++ strOf "\n\x7d"

/-- `SummarizationService.summarize`. -/
def summarize (enum : List Str → List Str) (t : Transcript) (formatType : Str)
    (dateStr : Str) : Str :=
  if t.segments = [] then strOf "No transcript content to summarize."
  else
    let data := extractSummaryData enum t.segments
    if formatType = strOf "md" then formatMarkdownSummary data t dateStr
    else if formatType = strOf "json" then formatJsonSummary data t dateStr
    else formatTextSummary data t dateStr

/-! ## Transcript text rendering and parsing -/

/-- The body lines written by `TabletopNotetakerApp._save_as_text`:
one `[<speaker>]: <text>` line (with trailing newline) per segment with
non-empty stripped text. -/
def saveAsTextBody (segs : List Segment) : Str :=
  segs.foldl
    (fun acc seg =>
      if pstrip seg.text = [] then acc
      else acc ++
        ('[' :: seg.speaker ++ strOf "]: " ++ pstrip seg.text ++ ['\n']))
    []

/-- The full file content written by `_save_as_text` (`dateStr` is the
rendered `datetime.now()` timestamp). -/
def saveAsTextContent (t : Transcript) (dateStr : Str) : Str :=
  strOf "Meeting Transcript\n" ++ strOf "Date: " ++ dateStr ++ strOf "\n\n"
  ++ saveAsTextBody t.segments

/-- One line of `NotetakerCLI._parse_transcript_file`: strip the line;
keep it only when it is non-empty and contains both `[` and `]:`; the
speaker is `line[1:line.find("]:")].strip()` and the text is
`line[line.find("]:") + 2:].strip()`. -/
def parseLine (rawLine : Str) : Option Segment :=
  if pstrip rawLine = [] then none
  else if '[' ∈ pstrip rawLine then
    match findCC (pstrip rawLine) with
    | some k =>
      some { speaker := pstrip (((pstrip rawLine).drop 1).take (k - 1))
             text := pstrip ((pstrip rawLine).drop (k + 2))
             start := 0
             stop := 0 }
    | none => none
  else none

/-- `NotetakerCLI._parse_transcript_file`. -/
def parseTranscriptFile (content : Str) : Transcript :=
  let segs := (splitOnChar '\n' content).filterMap parseLine
  { segments := segs
    duration := some (10 * segs.length)
    filePath := none }

/-! ## Recording state model -/

/-- The mutable state of `RecordingService` that the claims are about.
The PyAudio stream and capture thread are external resources; `frames`
is the chunk buffer the capture loop appends to. -/
structure ServiceState where
  isRecording : Bool
  outputPath : Option Str
  frames : List (List Nat)
deriving DecidableEq, Repr

/-- The mutable state of `TabletopNotetakerApp`. -/
structure AppState where
  isRecording : Bool
  currentRecordingPath : Option Str
  recordings : List Str
  service : ServiceState
deriving DecidableEq, Repr

/-- `RecordingService.start_recording(output_path)`: a no-op when the
service is already recording, otherwise resets the frame buffer, stores
the output path and raises the recording flag (the PyAudio stream open
is modelled as succeeding). -/
def serviceStartRecording (s : ServiceState) (path : Str) : ServiceState :=
  if s.isRecording then s
  else { isRecording := true, outputPath := some path, frames := [] }

/-- The output path chosen by `TabletopNotetakerApp.start_recording`:
the given path, or `recording_<timestamp>.wav` when none was given. -/
def resolveOutputPath (pathOpt : Option Str) (timestamp : Str) : Str :=
  match pathOpt with
  | some p => p
  | none => strOf "recording_" ++ timestamp ++ strOf ".wav"

/-- `TabletopNotetakerApp.start_recording`: stores the resolved path in
`current_recording_path`, calls the service, sets `is_recording` and
returns `True`.  There is no already-recording guard at this level. -/
def appStartRecording (st : AppState) (pathOpt : Option Str)
    (timestamp : Str) : Bool × AppState :=
  let p := resolveOutputPath pathOpt timestamp
  (true,
   { st with
     currentRecordingPath := some p
     service := serviceStartRecording st.service p
     isRecording := true })

/-- `RecordingService.stop_recording`: `None` when not recording;
otherwise clears the flag and returns the output path exactly when a
truthy (non-`None`, non-empty) path was supplied and at least one chunk
was captured (the WAV write is modelled as succeeding). -/
def serviceStopRecording (s : ServiceState) : Option Str × ServiceState :=
  if s.isRecording = false then (none, s)
  else
    let s' := { s with isRecording := false }
    match s.outputPath with
    | some p => if p ≠ [] ∧ s.frames ≠ [] then (some p, s') else (none, s')
    | none => (none, s')

/-- `str(self.current_recording_path)` as used by
`TabletopNotetakerApp.stop_recording` (Python renders `None` as the
string `"None"`). -/
def currentPathStr (st : AppState) : Str :=
  match st.currentRecordingPath with
  | some p => p
  | none => strOf "None"

/-- `TabletopNotetakerApp.stop_recording`: `None` when the app-level
flag is down; otherwise stops the service (discarding its result),
records the current path and returns it — regardless of whether
anything was captured or written. -/
def appStopRecording (st : AppState) : Option Str × AppState :=
  if st.isRecording = false then (none, st)
  else
    let svc := (serviceStopRecording st.service).2
    let recs :=
      match st.currentRecordingPath with
      | some _ => st.recordings ++ [currentPathStr st]
      | none => st.recordings
    (some (currentPathStr st),
     { st with isRecording := false, service := svc, recordings := recs })

/-! ## Spec-side definitions used for comparison -/

/-- Spec-side formulation of the `speakers` contract: the distinct
speaker labels of the segments with non-empty trimmed text, in order of
first appearance.  This follows the spec's words and is compared with
the source-translated `extractSummaryData`. -/
def specFirstAppearanceSpeakers (segs : List Segment) : List Str :=
  ((segs.filter (fun s => !(pstrip s.text).isEmpty)).map Segment.speaker).foldl
    setAdd []

/-! ## Lemmas about the speaker set -/

theorem mem_setAdd {l : List Str} {s x : Str} :
    x ∈ setAdd l s ↔ x ∈ l ∨ x = s := by
  unfold setAdd
  split
  · rename_i h
    exact ⟨Or.inl, fun hx => hx.elim id (fun he => he ▸ h)⟩
  · simp

theorem nodup_setAdd {l : List Str} (s : Str) (h : l.Nodup) :
    (setAdd l s).Nodup := by
  unfold setAdd
  split
  · exact h
  · rename_i hs
    simp [List.nodup_append, h, hs]

theorem foldl_setAdd_mem (l : List Str) (init : List Str) (x : Str) :
    x ∈ l.foldl setAdd init ↔ x ∈ init ∨ x ∈ l := by
  induction l generalizing init with
  | nil => simp
  | cons a l ih =>
    simp only [List.foldl_cons, ih, mem_setAdd, List.mem_cons]
    tauto

theorem foldl_setAdd_nodup (l : List Str) (init : List Str)
    (h : init.Nodup) : (l.foldl setAdd init).Nodup := by
  induction l generalizing init with
  | nil => exact h
  | cons a l ih => exact ih _ (nodup_setAdd a h)

theorem extractLoop_speakers_eq (segs : List Segment) (acc : ExtractAcc) :
    (segs.foldl stepSeg acc).speakers =
      ((segs.filter (fun s => !(pstrip s.text).isEmpty)).map
        Segment.speaker).foldl setAdd acc.speakers := by
  induction segs generalizing acc with
  | nil => rfl
  | cons seg rest ih =>
    by_cases h : pstrip seg.text = []
    · rw [List.foldl_cons, ih]
      simp [stepSeg, h]
    · rw [List.foldl_cons, ih]
      simp [stepSeg, h]

/-- Claim C1, counterexample.  The claim asserts that `speakers` is in
first-appearance order for every faithful set enumeration; CPython set
iteration order is hash-dependent, so the reversed enumeration is a
faithful one, and under it the speakers of two segments come out in
reversed order. -/
theorem c1_counterexample :
    ¬ (∀ enum : List Str → List Str,
        (∀ l : List Str, l.Nodup → (enum l).Perm l) →
        ∀ segs : List Segment,
          (extractSummaryData enum segs).speakers =
            specFirstAppearanceSpeakers segs) := by
  intro h
  have hrev := h List.reverse (fun l _ => l.reverse_perm)
    [⟨strOf "Alice", strOf "hi", 0, 0⟩, ⟨strOf "Bob", strOf "yo", 0, 0⟩]
  exact absurd hrev (by decide)

/-- Claim C1, amended: for every faithful enumeration of the speaker
set, `speakers` contains exactly the distinct speaker labels of the
segments with non-empty trimmed text, with no duplicates — but in an
unspecified enumeration order rather than first-appearance order. -/
theorem c1_speakers_amended (enum : List Str → List Str)
    (henum : ∀ l : List Str, l.Nodup → (enum l).Perm l)
    (segs : List Segment) :
    (extractSummaryData enum segs).speakers.Nodup ∧
    (extractSummaryData enum segs).speakers.Perm
      (specFirstAppearanceSpeakers segs) ∧
    ∀ sp : Str, sp ∈ (extractSummaryData enum segs).speakers ↔
      ∃ seg ∈ segs, pstrip seg.text ≠ [] ∧ seg.speaker = sp := by
  have hloop : (extractLoop segs).speakers = specFirstAppearanceSpeakers segs :=
    extractLoop_speakers_eq segs ⟨[], [], [], []⟩
  have hnd : (extractLoop segs).speakers.Nodup := by
    rw [hloop]
    exact foldl_setAdd_nodup _ _ List.nodup_nil
  have hperm : (extractSummaryData enum segs).speakers.Perm
      (extractLoop segs).speakers := henum _ hnd
  refine ⟨hperm.symm.nodup hnd, by rw [← hloop]; exact hperm, fun sp => ?_⟩
  rw [hperm.mem_iff, hloop, specFirstAppearanceSpeakers, foldl_setAdd_mem]
  simp only [List.not_mem_nil, false_or, List.mem_map, List.mem_filter]
  constructor
  · rintro ⟨seg, ⟨hseg, hne⟩, rfl⟩
    refine ⟨seg, hseg, ?_, rfl⟩
    simpa using hne
  · rintro ⟨seg, hseg, hne, rfl⟩
    refine ⟨seg, ⟨hseg, ?_⟩, rfl⟩
    simpa using hne

/-- Claim C1, witness for the amended theorem at a concrete input. -/
theorem c1_speakers_amended_witness :
    (extractSummaryData id
      [⟨strOf "Alice", strOf "hi", 0, 0⟩]).speakers.Nodup ∧
    (extractSummaryData id
      [⟨strOf "Alice", strOf "hi", 0, 0⟩]).speakers.Perm
      (specFirstAppearanceSpeakers [⟨strOf "Alice", strOf "hi", 0, 0⟩]) :=
  ⟨(c1_speakers_amended id (fun l _ => List.Perm.refl l) _).1,
   (c1_speakers_amended id (fun l _ => List.Perm.refl l) _).2.1⟩

/-- Claim C5: a transcript with an empty `segments` list is summarized
as the fixed message, for every format type. -/
theorem c5_empty_transcript_message (enum : List Str → List Str)
    (t : Transcript) (formatType dateStr : Str) (h : t.segments = []) :
    summarize enum t formatType dateStr =
      strOf "No transcript content to summarize." := by
  unfold summarize
  rw [h]
  simp

/-- Claim C5, witness at a concrete empty transcript and format. -/
theorem c5_empty_transcript_message_witness :
    summarize id ⟨[], none, none⟩ (strOf "json") (strOf "D") =
      strOf "No transcript content to summarize." :=
  c5_empty_transcript_message id ⟨[], none, none⟩ _ _ rfl

/-- Claim C7, counterexample.  With a recording already in progress,
`TabletopNotetakerApp.start_recording` returns `True` (success, not
failure) and overwrites `current_recording_path`. -/
theorem c7_counterexample :
    (appStartRecording
      ⟨true, some (strOf "old.wav"), [],
        ⟨true, some (strOf "old.wav"), [[0]]⟩⟩
      (some (strOf "new.wav")) (strOf "T")).1 = true ∧
    (appStartRecording
      ⟨true, some (strOf "old.wav"), [],
        ⟨true, some (strOf "old.wav"), [[0]]⟩⟩
      (some (strOf "new.wav")) (strOf "T")).2.currentRecordingPath =
      some (strOf "new.wav") ∧
    some (strOf "new.wav") ≠ some (strOf "old.wav") := by
  refine ⟨rfl, rfl, ?_⟩
  decide

/-- Claim C7, amended: starting while a recording is in progress leaves
the `RecordingService` state unchanged (the service-level guard fires),
but the app-level call reports success and overwrites the current
recording path instead of failing with no side effects. -/
theorem c7_start_amended (st : AppState) (pathOpt : Option Str) (ts : Str)
    (h : st.service.isRecording = true) :
    (appStartRecording st pathOpt ts).1 = true ∧
    (appStartRecording st pathOpt ts).2.service = st.service ∧
    (appStartRecording st pathOpt ts).2.currentRecordingPath =
      some (resolveOutputPath pathOpt ts) ∧
    (appStartRecording st pathOpt ts).2.recordings = st.recordings ∧
    (appStartRecording st pathOpt ts).2.isRecording = true := by
  unfold appStartRecording serviceStartRecording
  rw [h]
  simp

/-- Claim C7, witness for the amended theorem at a concrete state. -/
theorem c7_start_amended_witness :
    (appStartRecording
      ⟨true, some (strOf "a.wav"), [], ⟨true, some (strOf "a.wav"), []⟩⟩
      none (strOf "T")).1 = true ∧
    (appStartRecording
      ⟨true, some (strOf "a.wav"), [], ⟨true, some (strOf "a.wav"), []⟩⟩
      none (strOf "T")).2.service = ⟨true, some (strOf "a.wav"), []⟩ := by
  have h := c7_start_amended
    ⟨true, some (strOf "a.wav"), [], ⟨true, some (strOf "a.wav"), []⟩⟩
    none (strOf "T") rfl
  exact ⟨h.1, h.2.1⟩

/-- Claim C8, counterexample.  With the app-level flag up but nothing
captured (empty frame buffer), `TabletopNotetakerApp.stop_recording`
still returns the current recording path, not `None` — even though no
file was written. -/
theorem c8_counterexample :
    (appStopRecording
      ⟨true, some (strOf "r.wav"), [],
        ⟨true, some (strOf "r.wav"), []⟩⟩).1 = some (strOf "r.wav") ∧
    (serviceStopRecording ⟨true, some (strOf "r.wav"), []⟩).1 = none := by
  exact ⟨rfl, rfl⟩

/-- Claim C8, amended: at the `RecordingService` level the claim holds —
`stop_recording` returns `None` when nothing was recording or nothing
was captured, and returns a path only when a truthy destination was
supplied, at least one chunk was captured and the service was
recording.  The app-level `stop_recording`, however, returns the
current recording path whenever the app-level flag was set, regardless
of capture. -/
theorem c8_stop_amended :
    (∀ s : ServiceState,
      (s.isRecording = false → (serviceStopRecording s).1 = none) ∧
      (s.frames = [] → (serviceStopRecording s).1 = none) ∧
      (∀ p : Str, (serviceStopRecording s).1 = some p →
        s.isRecording = true ∧ s.outputPath = some p ∧ p ≠ [] ∧
          s.frames ≠ [])) ∧
    (∀ st : AppState, st.isRecording = true →
      (appStopRecording st).1 = some (currentPathStr st)) := by
  constructor
  · rintro ⟨rec, opath, fr⟩
    refine ⟨?_, ?_, ?_⟩
    · rintro rfl
      rfl
    · rintro rfl
      cases rec with
      | false => rfl
      | true =>
        cases opath with
        | none => rfl
        | some q => simp [serviceStopRecording]
    · intro p hp
      cases rec with
      | false => exact absurd hp (by simp [serviceStopRecording])
      | true =>
        cases opath with
        | none => exact absurd hp (by simp [serviceStopRecording])
        | some q =>
          simp only [serviceStopRecording] at hp
          split at hp
          · rename_i hcontra
            exact absurd hcontra (by simp)
          · split at hp
            · rename_i hq
              obtain rfl : q = p := by simpa using hp
              exact ⟨rfl, rfl, hq.1, hq.2⟩
            · simp at hp
  · intro st h
    simp [appStopRecording, h]

/-- Claim C8, witness: the amended theorem applied at concrete states —
a non-recording service returns `None`, and a recording app state
returns its current path. -/
theorem c8_stop_amended_witness :
    (serviceStopRecording ⟨false, some (strOf "r.wav"), [[0]]⟩).1 = none ∧
    (appStopRecording
      ⟨true, some (strOf "r.wav"), [],
        ⟨true, some (strOf "r.wav"), [[0]]⟩⟩).1 = some (strOf "r.wav") :=
  ⟨(c8_stop_amended.1 ⟨false, some (strOf "r.wav"), [[0]]⟩).1 rfl,
   c8_stop_amended.2
     ⟨true, some (strOf "r.wav"), [], ⟨true, some (strOf "r.wav"), [[0]]⟩⟩
     rfl⟩

/-! ## Claim C4: caps and summary-text structure -/

theorem foldl_limit3 (l : List Str) (acc : List Str) :
    l.foldl (fun acc s => if acc.length < 3 then acc ++ [s] else acc) acc =
      acc ++ l.take (3 - acc.length) := by
  induction l generalizing acc with
  | nil => simp
  | cons s l ih =>
    by_cases h : acc.length < 3
    · rw [List.foldl_cons, if_pos h, ih, List.append_assoc]
      congr 1
      rw [show 3 - acc.length = (3 - (acc.length + 1)) + 1 by omega,
        List.take_succ_cons]
      simp
    · rw [List.foldl_cons, if_neg h, ih]
      have h0 : 3 - acc.length = 0 := by omega
      simp [h0]

/-- Claim C4: for every list of segments the extracted `SummaryData`
has at most 10 key points, 5 action items and 15 keywords, and its
summary text is the space-join of the first 3 of the first 5
substantial (length > 20) sentences of the concatenated text, in
original order — hence at most 3 sentences. -/
theorem c4_caps_and_summary (enum : List Str → List Str)
    (segs : List Segment) :
    (extractSummaryData enum segs).keyPoints.length ≤ 10 ∧
    (extractSummaryData enum segs).actionItems.length ≤ 5 ∧
    (extractSummaryData enum segs).keywords.length ≤ 15 ∧
    (extractSummaryData enum segs).summaryText =
      joinSep [' ']
        (((substantialSentences
            (joinSep [' '] (extractLoop segs).allText)).take 5).take 3) ∧
    (((substantialSentences
        (joinSep [' '] (extractLoop segs).allText)).take 5).take 3).length
      ≤ 3 := by
  refine ⟨?_, ?_, ?_, ?_, ?_⟩
  · exact List.length_take_le 10 (extractLoop segs).keyPoints
  · exact List.length_take_le 5 (extractLoop segs).actionItems
  · exact List.length_take_le 15
      (extractKeywords (joinSep [' '] (extractLoop segs).allText))
  · show generateSummaryText (extractLoop segs).allText = _
    unfold generateSummaryText
    dsimp only
    rw [foldl_limit3]
    simp
  · exact List.length_take_le 3 _

/-! ## Claim C3/C10: keyword extraction

`firstIdx w l` is the position of the first occurrence of `w` in `l`
(`l.length` when absent); it expresses the "first-occurrence order"
tie-break of the claim. -/

def firstIdx (w : Str) : List Str → Nat
  | [] => 0
  | x :: xs => if x = w then 0 else firstIdx w xs + 1

theorem firstIdx_append_left {a : Str} {l r : List Str} (h : a ∈ l) :
    firstIdx a (l ++ r) = firstIdx a l := by
  induction l with
  | nil => cases h
  | cons x l ih =>
    by_cases hx : x = a
    · simp [firstIdx, hx]
    · rcases List.mem_cons.mp h with rfl | hm
      · exact absurd rfl hx
      · simp [firstIdx, hx, ih hm]

theorem firstIdx_append_right {a : Str} {l r : List Str} (h : a ∉ l) :
    firstIdx a (l ++ r) = l.length + firstIdx a r := by
  induction l with
  | nil => simp
  | cons x l ih =>
    have hx : x ≠ a := fun he => h (he ▸ List.mem_cons_self x l)
    have hm : a ∉ l := fun hm => h (List.mem_cons_of_mem x hm)
    simp [firstIdx, hx, ih hm]
    omega

theorem firstIdx_lt_length {a : Str} {l : List Str} (h : a ∈ l) :
    firstIdx a l < l.length := by
  induction l with
  | nil => cases h
  | cons x l ih =>
    by_cases hx : x = a
    · simp [firstIdx, hx]
    · rcases List.mem_cons.mp h with rfl | hm
      · exact absurd rfl hx
      · simp only [firstIdx, if_neg hx, List.length_cons]
        exact Nat.succ_lt_succ (ih hm)

/-- Relative first-occurrence order is preserved when passing from a
filtered list back to the original list. -/
theorem firstIdx_filter_mono {p : Str → Bool} {a b : Str} :
    ∀ {ws : List Str}, a ∈ ws.filter p → b ∈ ws.filter p →
      firstIdx a (ws.filter p) < firstIdx b (ws.filter p) →
      firstIdx a ws < firstIdx b ws := by
  intro ws
  induction ws with
  | nil => intro ha; cases ha
  | cons t rest ih =>
    intro ha hb hlt
    by_cases hp : p t = true
    · rw [List.filter_cons_of_pos hp] at ha hb hlt
      by_cases hta : t = a
      · subst hta
        simp only [firstIdx, if_pos rfl] at hlt ⊢
        have hbt : t ≠ b := by
          intro he
          rw [if_pos he] at hlt
          exact Nat.lt_irrefl 0 hlt
        rw [if_neg hbt]
        exact Nat.succ_pos _
      · by_cases htb : t = b
        · rw [firstIdx, if_neg hta, firstIdx, if_pos htb] at hlt
          exact absurd hlt (by omega)
        · rw [firstIdx, if_neg hta, firstIdx, if_neg htb] at hlt ⊢
          have ha' : a ∈ rest.filter p := by
            rcases List.mem_cons.mp ha with rfl | h
            · exact absurd rfl hta
            · exact h
          have hb' : b ∈ rest.filter p := by
            rcases List.mem_cons.mp hb with rfl | h
            · exact absurd rfl htb
            · exact h
          exact Nat.succ_lt_succ (ih ha' hb' (by omega))
    · rw [List.filter_cons_of_neg (by simpa using hp)] at ha hb hlt
      have hpa : p a = true := (List.mem_filter.mp ha).2
      have hpb : p b = true := (List.mem_filter.mp hb).2
      have hta : t ≠ a := fun he => by rw [he] at hp; exact hp hpa
      have htb : t ≠ b := fun he => by rw [he] at hp; exact hp hpb
      rw [firstIdx, if_neg hta, firstIdx, if_neg htb]
      exact Nat.succ_lt_succ (ih ha hb hlt)

/-! Stable insertion sort lemmas. -/

theorem insertDesc_perm (x : Str × Nat) (l : List (Str × Nat)) :
    (insertDesc x l).Perm (x :: l) := by
  induction l with
  | nil => exact List.Perm.refl _
  | cons y ys ih =>
    unfold insertDesc
    split
    · exact List.Perm.refl _
    · exact (List.Perm.cons y ih).trans (List.Perm.swap x y ys)

theorem isortDesc_perm (l : List (Str × Nat)) : (isortDesc l).Perm l := by
  induction l with
  | nil => exact List.Perm.refl _
  | cons x xs ih =>
    exact (insertDesc_perm x (isortDesc xs)).trans (List.Perm.cons x ih)

theorem pairwise_insertDesc {R : Str × Nat → Str × Nat → Prop}
    (x : Str × Nat) :
    ∀ s : List (Str × Nat),
      s.Pairwise (fun a b => b.2 ≤ a.2) → s.Pairwise R →
      (∀ y ∈ s, (y.2 ≤ x.2 → R x y) ∧ (x.2 < y.2 → R y x)) →
      (insertDesc x s).Pairwise R := by
  intro s
  induction s with
  | nil =>
    intro _ _ _
    simp [insertDesc]
  | cons y ys ih =>
    intro hge hR hdi
    unfold insertDesc
    split
    · rename_i hyx
      refine List.Pairwise.cons ?_ hR
      intro z hz
      rcases List.mem_cons.mp hz with hzy | hzys
      · rw [hzy]
        exact (hdi y (List.mem_cons_self y ys)).1 hyx
      · have hzy2 : z.2 ≤ y.2 := List.rel_of_pairwise_cons hge hzys
        exact (hdi z (List.mem_cons_of_mem y hzys)).1 (le_trans hzy2 hyx)
    · rename_i hyx
      have hxy2 : x.2 < y.2 := Nat.not_le.mp hyx
      refine List.Pairwise.cons ?_ ?_
      · intro z hz
        have hz' : z ∈ x :: ys := (insertDesc_perm x ys).mem_iff.mp hz
        rcases List.mem_cons.mp hz' with hzx | hzys
        · rw [hzx]
          exact (hdi y (List.mem_cons_self y ys)).2 hxy2
        · exact List.rel_of_pairwise_cons hR hzys
      · exact ih (List.Pairwise.of_cons hge) (List.Pairwise.of_cons hR)
          (fun z hz => hdi z (List.mem_cons_of_mem y hz))

theorem isortDesc_sorted (l : List (Str × Nat)) :
    (isortDesc l).Pairwise (fun a b => b.2 ≤ a.2) := by
  induction l with
  | nil => simp [isortDesc]
  | cons x xs ih =>
    exact pairwise_insertDesc x (isortDesc xs) ih ih
      (fun y _ => ⟨fun h => h, fun h => le_of_lt h⟩)

/-- Stability of the descending insertion sort: when the input is
strictly increasing under a priority function `f` (here: first
occurrence), the output is descending by count with ties resolved by
`f`. -/
theorem isortDesc_stable (f : Str × Nat → Nat) :
    ∀ l : List (Str × Nat), l.Pairwise (fun a b => f a < f b) →
      (isortDesc l).Pairwise
        (fun a b => b.2 < a.2 ∨ (a.2 = b.2 ∧ f a < f b)) := by
  intro l
  induction l with
  | nil => intro _; simp [isortDesc]
  | cons x xs ih =>
    intro hf
    have hx : ∀ y ∈ xs, f x < f y := fun y hy =>
      List.rel_of_pairwise_cons hf hy
    refine pairwise_insertDesc x (isortDesc xs) (isortDesc_sorted xs)
      (ih (List.Pairwise.of_cons hf)) ?_
    intro y hy
    have hyxs : y ∈ xs := (isortDesc_perm xs).mem_iff.mp hy
    constructor
    · intro hle
      rcases Nat.lt_or_ge y.2 x.2 with hlt | hge
      · exact Or.inl hlt
      · exact Or.inr ⟨Nat.le_antisymm hge hle, hx y hyxs⟩
    · intro hlt
      exact Or.inl hlt

/-! Lemmas about the frequency map `wordFreq`. -/

theorem bump_not_mem {m : List (Str × Nat)} {w : Str}
    (h : w ∉ m.map Prod.fst) : bump m w = m ++ [(w, 1)] := by
  induction m with
  | nil => rfl
  | cons e m ih =>
    have he : e.1 ≠ w := by
      intro hew
      exact h (by simp [hew])
    have hm : w ∉ m.map Prod.fst := by
      intro hm
      exact h (by simp [hm])
    obtain ⟨k, n⟩ := e
    simp only [bump, if_neg he, List.cons_append, List.cons.injEq, true_and]
    exact ih hm

theorem bump_decomp {m : List (Str × Nat)} {w : Str} {n : Nat}
    (hnd : (m.map Prod.fst).Nodup) (h : (w, n) ∈ m) :
    ∃ pre post, m = pre ++ (w, n) :: post ∧
      bump m w = pre ++ (w, n + 1) :: post ∧
      w ∉ pre.map Prod.fst ∧ w ∉ post.map Prod.fst := by
  induction m with
  | nil => cases h
  | cons e m ih =>
    rcases List.mem_cons.mp h with he | hm
    · refine ⟨[], m, ?_, ?_, by simp, ?_⟩
      · simp [← he]
      · rw [← he]
        simp [bump]
      · have : e.1 ∉ m.map Prod.fst := (List.nodup_cons.mp (by simpa using hnd)).1
        rw [← he] at this
        exact this
    · have hnd' : (m.map Prod.fst).Nodup :=
        (List.nodup_cons.mp (by simpa using hnd)).2
      have hwm : w ∈ m.map Prod.fst := by
        exact List.mem_map.mpr ⟨(w, n), hm, rfl⟩
      have hew : e.1 ≠ w := by
        intro hew
        exact (List.nodup_cons.mp (by simpa using hnd)).1 (hew ▸ hwm)
      obtain ⟨pre, post, h1, h2, h3, h4⟩ := ih hnd' hm
      refine ⟨e :: pre, post, by rw [h1]; simp, ?_, ?_, h4⟩
      · obtain ⟨k, nk⟩ := e
        simp only [bump, if_neg hew, List.cons_append, List.cons.injEq, true_and]
        exact h2
      · simp only [List.map_cons, List.mem_cons]
        rintro (hw | hw)
        · exact hew hw.symm
        · exact h3 hw

/-- The invariant of the frequency-counting loop: after processing the
kept tokens `ps`, the map has duplicate-free keys in first-occurrence
order, each entry's count is the token's count in `ps`, and the keys
are exactly the tokens seen. -/
def freqInv (ps : List Str) (m : List (Str × Nat)) : Prop :=
  (m.map Prod.fst).Nodup ∧
  (∀ e ∈ m, e.2 = ps.count e.1 ∧ e.1 ∈ ps) ∧
  (∀ w ∈ ps, w ∈ m.map Prod.fst) ∧
  (m.map Prod.fst).Pairwise (fun a b => firstIdx a ps < firstIdx b ps)

theorem count_append_singleton_ne {a w : Str} {ps : List Str}
    (h : a ≠ w) : (ps ++ [w]).count a = ps.count a := by
  rw [List.count_append]
  simp [List.count_singleton', h]

theorem freqInv_bump {ps : List Str} {m : List (Str × Nat)} (w : Str)
    (h : freqInv ps m) : freqInv (ps ++ [w]) (bump m w) := by
  obtain ⟨hnd, hcnt, hcmpl, hpw⟩ := h
  have hkey_mem_ps : ∀ a ∈ m.map Prod.fst, a ∈ ps := by
    intro a ha
    obtain ⟨e, he, rfl⟩ := List.mem_map.mp ha
    exact (hcnt e he).2
  by_cases hw : w ∈ m.map Prod.fst
  · have hx : ∃ n, (w, n) ∈ m := by
      obtain ⟨e, he, hew⟩ := List.mem_map.mp hw
      refine ⟨e.2, ?_⟩
      have he2 : e = (w, e.2) := by
        obtain ⟨k, n⟩ := e
        simp only at hew
        rw [hew]
      rwa [he2] at he
    obtain ⟨n, he⟩ := hx
    obtain ⟨pre, post, h1, h2, h3, h4⟩ := bump_decomp hnd he
    have hkeys : (bump m w).map Prod.fst = m.map Prod.fst := by
      rw [h2, h1]
      simp
    have hn : n = List.count w ps := (hcnt (w, n) he).1
    refine ⟨hkeys ▸ hnd, ?_, ?_, ?_⟩
    · intro e' he'
      rw [h2] at he'
      rcases List.mem_append.mp he' with hpre | hrest
      · have hne : e'.1 ≠ w := by
          intro hew'
          exact h3 (hew' ▸ List.mem_map.mpr ⟨e', hpre, rfl⟩)
        have hmem : e' ∈ m := by
          rw [h1]
          exact List.mem_append.mpr (Or.inl hpre)
        refine ⟨?_, List.mem_append_left _ (hcnt e' hmem).2⟩
        rw [count_append_singleton_ne hne]
        exact (hcnt e' hmem).1
      · rcases List.mem_cons.mp hrest with hew' | hpost
        · rw [hew']
          refine ⟨?_, by simp⟩
          show n + 1 = List.count w (ps ++ [w])
          rw [List.count_append]
          simp [hn]
        · have hne : e'.1 ≠ w := by
            intro hew2
            exact h4 (hew2 ▸ List.mem_map.mpr ⟨e', hpost, rfl⟩)
          have hmem : e' ∈ m := by
            rw [h1]
            exact List.mem_append.mpr (Or.inr (List.mem_cons_of_mem _ hpost))
          refine ⟨?_, List.mem_append_left _ (hcnt e' hmem).2⟩
          rw [count_append_singleton_ne hne]
          exact (hcnt e' hmem).1
    · intro v hv
      rw [hkeys]
      rcases List.mem_append.mp hv with hv | hv
      · exact hcmpl v hv
      · rw [List.mem_singleton.mp hv]
        exact hw
    · rw [hkeys]
      refine hpw.imp_of_mem ?_
      intro a b ha hb hab
      rw [firstIdx_append_left (hkey_mem_ps a ha),
        firstIdx_append_left (hkey_mem_ps b hb)]
      exact hab
  · have hwps : w ∉ ps := fun hwps => hw (hcmpl w hwps)
    rw [bump_not_mem hw]
    have hkeys : (m ++ [(w, 1)]).map Prod.fst = m.map Prod.fst ++ [w] := by
      simp
    refine ⟨?_, ?_, ?_, ?_⟩
    · rw [hkeys]
      simp [List.nodup_append, hnd, hw]
    · intro e' he'
      rcases List.mem_append.mp he' with hm | hone
      · have hne : e'.1 ≠ w := by
          intro hew
          exact hw (hew ▸ List.mem_map.mpr ⟨e', hm, rfl⟩)
        refine ⟨?_, List.mem_append_left _ (hcnt e' hm).2⟩
        rw [count_append_singleton_ne hne]
        exact (hcnt e' hm).1
      · rw [List.mem_singleton.mp hone]
        refine ⟨?_, by simp⟩
        show 1 = List.count w (ps ++ [w])
        rw [List.count_append]
        simp [List.count_eq_zero.mpr hwps]
    · intro v hv
      rw [hkeys]
      rcases List.mem_append.mp hv with hv | hv
      · exact List.mem_append_left _ (hcmpl v hv)
      · simp [List.mem_singleton.mp hv]
    · rw [hkeys]
      rw [List.pairwise_append]
      refine ⟨?_, by simp, ?_⟩
      · refine hpw.imp_of_mem ?_
        intro a b ha hb hab
        rw [firstIdx_append_left (hkey_mem_ps a ha),
          firstIdx_append_left (hkey_mem_ps b hb)]
        exact hab
      · intro a ha b hb
        rw [List.mem_singleton.mp hb]
        rw [firstIdx_append_left (hkey_mem_ps a ha),
          firstIdx_append_right hwps]
        have : firstIdx w [w] = 0 := by simp [firstIdx]
        rw [this]
        have := firstIdx_lt_length (hkey_mem_ps a ha)
        omega

theorem freqInv_foldl (qs : List Str) :
    ∀ (ps : List Str) (m : List (Str × Nat)), freqInv ps m →
      freqInv (ps ++ qs) (qs.foldl bump m) := by
  induction qs with
  | nil =>
    intro ps m h
    simpa using h
  | cons q qs ih =>
    intro ps m h
    have h' := ih (ps ++ [q]) (bump m q) (freqInv_bump q h)
    rw [List.append_assoc] at h'
    simpa using h'

theorem foldl_bump_filter (ws : List Str) :
    ∀ m : List (Str × Nat),
      ws.foldl (fun m w => if passFilter w then bump m w else m) m =
        (ws.filter passFilter).foldl bump m := by
  induction ws with
  | nil => intro m; rfl
  | cons w ws ih =>
    intro m
    by_cases hp : passFilter w = true
    · rw [List.foldl_cons, if_pos hp, List.filter_cons_of_pos hp,
        List.foldl_cons, ih]
    · rw [List.foldl_cons, if_neg (by simp [hp]),
        List.filter_cons_of_neg (by simpa using hp), ih]

theorem wordFreq_inv (ws : List Str) :
    freqInv (ws.filter passFilter) (wordFreq ws) := by
  have h0 : freqInv [] [] := ⟨List.nodup_nil, by simp, by simp, by simp⟩
  have h := freqInv_foldl (ws.filter passFilter) [] [] h0
  rw [wordFreq, foldl_bump_filter]
  simpa using h

theorem count_filter_of_pass {p : Str → Bool} {w : Str} {ws : List Str}
    (h : p w = true) : (ws.filter p).count w = ws.count w := by
  induction ws with
  | nil => rfl
  | cons a ws ih =>
    by_cases hp : p a = true
    · rw [List.filter_cons_of_pos hp]
      simp only [List.count_cons, ih]
    · rw [List.filter_cons_of_neg (by simpa using hp)]
      have haw : (a == w) = false := by
        by_cases he : a = w
        · rw [he] at hp
          exact absurd h hp
        · simp [he]
      simp [List.count_cons, haw, ih]

/-- Every entry of the frequency map carries the token's corpus count
and passes the length/stop-word filter. -/
theorem mem_wordFreq {ws : List Str} {w : Str} {n : Nat}
    (h : (w, n) ∈ wordFreq ws) :
    passFilter w = true ∧ n = ws.count w ∧ w ∈ ws := by
  obtain ⟨_, hcnt, _, _⟩ := wordFreq_inv ws
  obtain ⟨hn, hmem⟩ := hcnt (w, n) h
  have hn' : n = List.count w (ws.filter passFilter) := hn
  have hmem' : w ∈ ws.filter passFilter := hmem
  have hp : passFilter w = true := (List.mem_filter.mp hmem').2
  refine ⟨hp, ?_, (List.mem_filter.mp hmem').1⟩
  rw [hn']
  exact count_filter_of_pass hp

/-- The keys of the frequency map are pairwise in strictly increasing
first-occurrence order with respect to the full token list. -/
theorem wordFreq_pairwise_firstIdx (ws : List Str) :
    (wordFreq ws).Pairwise
      (fun e1 e2 => firstIdx e1.1 ws < firstIdx e2.1 ws) := by
  obtain ⟨_, hcnt, _, hpw⟩ := wordFreq_inv ws
  have hkeys : ∀ e ∈ wordFreq ws, e.1 ∈ ws.filter passFilter :=
    fun e he => (hcnt e he).2
  have h1 : (wordFreq ws).Pairwise
      (fun e1 e2 => firstIdx e1.1 (ws.filter passFilter) <
        firstIdx e2.1 (ws.filter passFilter)) := by
    rw [List.pairwise_map] at hpw
    exact hpw
  refine h1.imp_of_mem ?_
  intro e1 e2 h1m h2m hlt
  exact firstIdx_filter_mono (hkeys e1 h1m) (hkeys e2 h2m) hlt

/-- Claim C3: every extracted keyword has corpus frequency (count among
the word tokens of the lowercased text) strictly greater than 1; the
keyword list is sorted by strictly descending frequency except that
equal-frequency keywords are ordered by first occurrence in the text;
and the capped list `keywords[:15]` has at most 15 entries. -/
theorem c3_keywords (text : Str) :
    (∀ w ∈ extractKeywords text,
      1 < List.count w (tokenizeWords (lower text))) ∧
    (extractKeywords text).Pairwise
      (fun a b =>
        List.count b (tokenizeWords (lower text)) <
          List.count a (tokenizeWords (lower text)) ∨
        (List.count a (tokenizeWords (lower text)) =
            List.count b (tokenizeWords (lower text)) ∧
          firstIdx a (tokenizeWords (lower text)) <
            firstIdx b (tokenizeWords (lower text)))) ∧
    ((extractKeywords text).take 15).length ≤ 15 := by
  have hperm := isortDesc_perm (wordFreq (tokenizeWords (lower text)))
  have hcount : ∀ e ∈ isortDesc (wordFreq (tokenizeWords (lower text))),
      e.2 = List.count e.1 (tokenizeWords (lower text)) := by
    intro e he
    obtain ⟨k, n⟩ := e
    exact (mem_wordFreq (hperm.mem_iff.mp he)).2.1
  refine ⟨?_, ?_, List.length_take_le 15 _⟩
  · intro w hw
    obtain ⟨e, hef, rfl⟩ := List.mem_map.mp hw
    have heS : e ∈ isortDesc (wordFreq (tokenizeWords (lower text))) :=
      (List.mem_filter.mp hef).1
    have he2 : 1 < e.2 := by simpa using (List.mem_filter.mp hef).2
    rw [← hcount e heS]
    exact he2
  · have hsort := isortDesc_stable
      (fun e => firstIdx e.1 (tokenizeWords (lower text)))
      (wordFreq (tokenizeWords (lower text)))
      (wordFreq_pairwise_firstIdx (tokenizeWords (lower text)))
    have hfil : ((isortDesc (wordFreq (tokenizeWords (lower text)))).filter
        (fun p => 1 < p.2)).Pairwise
        (fun a b => b.2 < a.2 ∨ (a.2 = b.2 ∧
          firstIdx a.1 (tokenizeWords (lower text)) <
            firstIdx b.1 (tokenizeWords (lower text)))) :=
      hsort.sublist (List.filter_sublist _)
    show (List.map Prod.fst _).Pairwise _
    rw [List.pairwise_map]
    refine hfil.imp_of_mem ?_
    intro e1 e2 h1m h2m h12
    have h1S : e1 ∈ isortDesc (wordFreq (tokenizeWords (lower text))) :=
      (List.mem_filter.mp h1m).1
    have h2S : e2 ∈ isortDesc (wordFreq (tokenizeWords (lower text))) :=
      (List.mem_filter.mp h2m).1
    rw [← hcount e1 h1S, ← hcount e2 h2S]
    exact h12

/-- Claim C3, witness: for the text "alpha alpha" the (sole) keyword
"alpha" indeed has corpus frequency greater than 1. -/
theorem c3_keywords_witness :
    1 < List.count (strOf "alpha") (tokenizeWords (lower (strOf "alpha alpha"))) :=
  (c3_keywords (strOf "alpha alpha")).1 (strOf "alpha") (by decide)

/-- Claim C10: no extracted keyword is in the fixed stop-word set and
none has length at most 3; in particular the action-item marker words
"will" and "should" never occur among the keywords. -/
theorem c10_keywords_stopwords (text : Str) :
    (∀ w ∈ extractKeywords text, ¬ w.length ≤ 3 ∧ w ∉ commonWords) ∧
    strOf "will" ∉ extractKeywords text ∧
    strOf "should" ∉ extractKeywords text := by
  have hmain : ∀ w ∈ extractKeywords text,
      ¬ w.length ≤ 3 ∧ w ∉ commonWords := by
    intro w hw
    obtain ⟨e, hef, rfl⟩ := List.mem_map.mp hw
    have heS := (List.mem_filter.mp hef).1
    have heM := (isortDesc_perm _).mem_iff.mp heS
    obtain ⟨k, n⟩ := e
    have hp : passFilter k = true := (mem_wordFreq heM).1
    simp only [passFilter, Bool.and_eq_true, decide_eq_true_eq,
      Bool.not_eq_eq_eq_not, Bool.not_true, decide_eq_false_iff_not] at hp
    show ¬ k.length ≤ 3 ∧ k ∉ commonWords
    exact ⟨by omega, hp.2⟩
  refine ⟨hmain, fun hmem => ?_, fun hmem => ?_⟩
  · exact (hmain _ hmem).2 (by decide)
  · exact (hmain _ hmem).2 (by decide)

/-- Claim C10, witness at a concrete text with a repeated keyword. -/
theorem c10_keywords_stopwords_witness :
    ¬ (strOf "gamma").length ≤ 3 ∧ strOf "gamma" ∉ commonWords :=
  (c10_keywords_stopwords (strOf "gamma gamma")).1 (strOf "gamma") (by decide)

/-! ## Claim C2/C6: lemmas about `pstrip`, `findCC` and `splitOnChar` -/

theorem dropWhile_eq_self_of_head {p : Char → Bool} {l : Str}
    (h : ∀ x, l.head? = some x → p x = false) : l.dropWhile p = l := by
  cases l with
  | nil => rfl
  | cons c cs => simp [List.dropWhile_cons, h c rfl]

theorem head_dropWhile_false {p : Char → Bool} :
    ∀ {l : Str} {x : Char}, (l.dropWhile p).head? = some x → p x = false := by
  intro l
  induction l with
  | nil => intro x hx; cases hx
  | cons c cs ih =>
    intro x hx
    by_cases hc : p c = true
    · rw [List.dropWhile_cons_of_pos hc] at hx
      exact ih hx
    · rw [List.dropWhile_cons_of_neg hc] at hx
      cases hx
      simpa using hc

theorem pstrip_eq_self {l : Str}
    (h1 : ∀ x, l.head? = some x → isPyWs x = false)
    (h2 : ∀ x, l.getLast? = some x → isPyWs x = false) : pstrip l = l := by
  unfold pstrip
  rw [dropWhile_eq_self_of_head h1]
  rw [dropWhile_eq_self_of_head (by simpa using h2)]
  exact List.reverse_reverse l

theorem pstrip_last_not_ws {l : Str} :
    ∀ x, (pstrip l).getLast? = some x → isPyWs x = false := by
  intro x hx
  unfold pstrip at hx
  rw [List.getLast?_reverse] at hx
  exact head_dropWhile_false hx

theorem head_eq_of_leading {l₁ l₂ : Str} (h : l₁ <+: l₂) (hne : l₁ ≠ []) :
    l₂.head? = l₁.head? := by
  obtain ⟨t, rfl⟩ := h
  cases l₁ with
  | nil => exact absurd rfl hne
  | cons c cs => rfl

theorem pstrip_leading_dropWhile (l : Str) :
    pstrip l <+: (l.dropWhile isPyWs) := by
  obtain ⟨s, hs⟩ := List.dropWhile_suffix
    (l := (l.dropWhile isPyWs).reverse) (p := isPyWs)
  refine ⟨s.reverse, ?_⟩
  unfold pstrip
  rw [← List.reverse_append, hs, List.reverse_reverse]

theorem pstrip_head_not_ws {l : Str} :
    ∀ x, (pstrip l).head? = some x → isPyWs x = false := by
  intro x hx
  have hne : pstrip l ≠ [] := by
    intro he
    rw [he] at hx
    cases hx
  have h := head_eq_of_leading (pstrip_leading_dropWhile l) hne
  rw [hx] at h
  exact head_dropWhile_false h

theorem pstrip_idem (l : Str) : pstrip (pstrip l) = pstrip l := by
  by_cases h : pstrip l = []
  · rw [h]
    rfl
  · exact pstrip_eq_self pstrip_head_not_ws pstrip_last_not_ws

theorem mem_pstrip {a : Char} {l : Str} (h : a ∈ pstrip l) : a ∈ l := by
  unfold pstrip at h
  rw [List.mem_reverse] at h
  have h2 := (List.dropWhile_sublist isPyWs).mem h
  rw [List.mem_reverse] at h2
  exact (List.dropWhile_sublist isPyWs).mem h2

theorem pstrip_cons_ws {c : Char} {l : Str} (h : isPyWs c = true) :
    pstrip (c :: l) = pstrip l := by
  unfold pstrip
  rw [List.dropWhile_cons_of_pos h]

/-- `occursAt l p` states that the substring `"]:"` occurs in `l` at
position `p`. -/
def occursAt (l : Str) (p : Nat) : Prop := (l.drop p).take 2 = [']', ':']

instance (l : Str) (p : Nat) : Decidable (occursAt l p) :=
  inferInstanceAs (Decidable ((l.drop p).take 2 = [']', ':']))

theorem occursAt_zero {c : Char} {cs : Str} :
    occursAt (c :: cs) 0 ↔ c = ']' ∧ cs.take 1 = [':'] := by
  unfold occursAt
  cases cs <;> simp [List.take]

theorem occursAt_succ {c : Char} {cs : Str} {p : Nat} :
    occursAt (c :: cs) (p + 1) ↔ occursAt cs p := Iff.rfl

theorem not_occursAt_nil (p : Nat) : ¬ occursAt [] p := by
  unfold occursAt
  simp

theorem findCC_none {l : Str} (h : findCC l = none) :
    ∀ p, ¬ occursAt l p := by
  induction l with
  | nil => exact not_occursAt_nil
  | cons c cs ih =>
    intro p
    rw [findCC] at h
    split at h
    · cases h
    · rename_i hcond
      have hcs : findCC cs = none := by
        cases hf : findCC cs with
        | none => rfl
        | some q => rw [hf] at h; cases h
      cases p with
      | zero => rw [occursAt_zero]; exact hcond
      | succ p => rw [occursAt_succ]; exact ih hcs p

theorem findCC_some {l : Str} {p : Nat} (h : findCC l = some p) :
    occursAt l p ∧ ∀ q < p, ¬ occursAt l q := by
  induction l generalizing p with
  | nil => cases h
  | cons c cs ih =>
    rw [findCC] at h
    split at h
    · rename_i hcond
      cases h
      exact ⟨occursAt_zero.mpr hcond, fun q hq => absurd hq (by omega)⟩
    · rename_i hcond
      cases hf : findCC cs with
      | none => rw [hf] at h; cases h
      | some p' =>
        rw [hf] at h
        obtain rfl : p' + 1 = p := by simpa using h
        obtain ⟨h1, h2⟩ := ih hf
        refine ⟨occursAt_succ.mpr h1, ?_⟩
        intro q hq
        cases q with
        | zero => rw [occursAt_zero]; exact hcond
        | succ q => rw [occursAt_succ]; exact h2 q (by omega)

theorem findCC_eq_some_of_min {l : Str} {p : Nat} (h1 : occursAt l p)
    (h2 : ∀ q < p, ¬ occursAt l q) : findCC l = some p := by
  cases hf : findCC l with
  | none => exact absurd h1 (findCC_none hf p)
  | some p' =>
    obtain ⟨h1', h2'⟩ := findCC_some hf
    have hle : ¬ p' < p := fun hlt => h2 p' hlt h1'
    have hge : ¬ p < p' := fun hlt => h2' p hlt h1
    congr
    omega

/-- `findCC` on a rendered transcript line: the first `"]:"` occurrence
is the one the renderer wrote, provided the speaker contains none. -/
theorem findCC_render {sp : Str} (rest : Str) (hsp : findCC sp = none) :
    findCC (sp ++ ']' :: ':' :: rest) = some sp.length := by
  induction sp with
  | nil => simp [findCC]
  | cons c sp ih =>
    rw [findCC] at hsp
    have hcond : ¬ (c = ']' ∧ sp.take 1 = [':']) := by
      intro hc
      rw [if_pos hc] at hsp
      cases hsp
    rw [if_neg hcond] at hsp
    have hsp' : findCC sp = none := by
      cases hf : findCC sp with
      | none => rfl
      | some q => rw [hf] at hsp; cases hsp
    have hcond2 : ¬ (c = ']' ∧ (sp ++ ']' :: ':' :: rest).take 1 = [':']) := by
      rintro ⟨rfl, htake⟩
      cases sp with
      | nil => simp at htake
      | cons d sp' =>
        simp at htake
        exact hcond ⟨rfl, by simp [htake]⟩
    rw [List.cons_append, findCC, if_neg hcond2, ih hsp']
    rfl

theorem splitOnChar_no_sep {c : Char} {a : Str} (h : c ∉ a) :
    splitOnChar c a = [a] := by
  induction a with
  | nil => rfl
  | cons x xs ih =>
    have hx : x ≠ c := fun he => h (he ▸ List.mem_cons_self x xs)
    have hxs : c ∉ xs := fun hm => h (List.mem_cons_of_mem x hm)
    rw [splitOnChar, if_neg hx, ih hxs]

theorem splitOnChar_append {c : Char} {a b : Str} (h : c ∉ a) :
    splitOnChar c (a ++ c :: b) = a :: splitOnChar c b := by
  induction a with
  | nil => simp [splitOnChar]
  | cons x xs ih =>
    have hx : x ≠ c := fun he => h (he ▸ List.mem_cons_self x xs)
    have hxs : c ∉ xs := fun hm => h (List.mem_cons_of_mem x hm)
    rw [List.cons_append, splitOnChar, if_neg hx, ih hxs]

/-- A line with no `[` (after stripping) is ignored by the parser. -/
theorem parseLine_no_bracket {line : Str} (h : '[' ∉ line) :
    parseLine line = none := by
  unfold parseLine
  split
  · rfl
  · rw [if_neg (fun hm => h (mem_pstrip hm))]

theorem drop_append_len {l₁ l₂ : Str} (n : Nat) :
    (l₁ ++ l₂).drop (l₁.length + n) = l₂.drop n := by
  induction l₁ with
  | nil => simp
  | cons c l₁ ih =>
    rw [List.cons_append, List.length_cons,
      show l₁.length + 1 + n = (l₁.length + n) + 1 by omega,
      List.drop_succ_cons, ih]

/-- Parsing a rendered `[<speaker>]: <text>` line recovers the speaker
and text, provided the speaker contains no `"]:"` and is already
stripped, and the text is non-empty and already stripped. -/
theorem parseLine_render {sp txt : Str}
    (hsp_cc : findCC sp = none) (hsp_strip : pstrip sp = sp)
    (htxt_ne : txt ≠ []) (htxt_strip : pstrip txt = txt) :
    parseLine ('[' :: sp ++ ']' :: ':' :: ' ' :: txt) =
      some ⟨sp, txt, 0, 0⟩ := by
  have hstrip : pstrip ('[' :: sp ++ ']' :: ':' :: ' ' :: txt) =
      '[' :: sp ++ ']' :: ':' :: ' ' :: txt := by
    apply pstrip_eq_self
    · intro x hx
      have hx' : x = '[' := by simpa using hx.symm
      rw [hx']
      decide
    · intro x hx
      have hre : ('[' :: sp ++ ']' :: ':' :: ' ' :: txt) =
          ('[' :: sp ++ [']', ':', ' ']) ++ txt := by simp
      rw [hre, List.getLast?_append_of_ne_nil _ htxt_ne] at hx
      rw [← htxt_strip] at hx
      exact pstrip_last_not_ws x hx
  have hne : ('[' :: sp ++ ']' :: ':' :: ' ' :: txt) ≠ [] := by simp
  have hbr : '[' ∈ ('[' :: sp ++ ']' :: ':' :: ' ' :: txt) :=
    List.mem_cons_self _ _
  have hsp_cc' : findCC ('[' :: sp) = none := by
    cases sp with
    | nil => decide
    | cons d sp' =>
      rw [show ('[' :: d :: sp' : Str) = '[' :: (d :: sp') from rfl, findCC]
      rw [if_neg (by simp), hsp_cc]
      rfl
  have hfind : findCC ('[' :: sp ++ ']' :: ':' :: ' ' :: txt) =
      some (sp.length + 1) := by
    have h := findCC_render (' ' :: txt) hsp_cc'
    simpa using h
  unfold parseLine
  rw [hstrip, if_neg hne, if_pos hbr, hfind]
  show some (⟨pstrip ((('[' :: sp ++ ']' :: ':' :: ' ' :: txt).drop 1).take
      (sp.length + 1 - 1)),
    pstrip (('[' :: sp ++ ']' :: ':' :: ' ' :: txt).drop (sp.length + 1 + 2)),
    0, 0⟩ : Segment) = some ⟨sp, txt, 0, 0⟩
  have h1 : ((('[' :: sp ++ ']' :: ':' :: ' ' :: txt).drop 1).take
      (sp.length + 1 - 1)) = sp := by
    rw [Nat.add_sub_cancel]
    show ((sp ++ ']' :: ':' :: ' ' :: txt).take sp.length) = sp
    exact List.take_left sp _
  have h2 : pstrip (('[' :: sp ++ ']' :: ':' :: ' ' :: txt).drop
      (sp.length + 1 + 2)) = txt := by
    show pstrip ((sp ++ ']' :: ':' :: ' ' :: txt).drop (sp.length + 2)) = txt
    rw [drop_append_len 2]
    show pstrip (' ' :: txt) = txt
    rw [pstrip_cons_ws (by decide)]
    exact htxt_strip
  rw [h1, hsp_strip, h2]

theorem saveAsTextBody_acc (segs : List Segment) :
    ∀ acc : Str,
      segs.foldl
        (fun acc seg =>
          if pstrip seg.text = [] then acc
          else acc ++
            ('[' :: seg.speaker ++ strOf "]: " ++ pstrip seg.text ++ ['\n']))
        acc = acc ++ saveAsTextBody segs := by
  induction segs with
  | nil => intro acc; simp [saveAsTextBody]
  | cons seg rest ih =>
    intro acc
    show List.foldl _ (if pstrip seg.text = [] then acc else _) rest = _
    have hbody : saveAsTextBody (seg :: rest) =
        (if pstrip seg.text = [] then ([] : Str)
          else ('[' :: seg.speaker ++ strOf "]: " ++ pstrip seg.text ++ ['\n']))
          ++ saveAsTextBody rest := by
      show List.foldl _ (if pstrip seg.text = [] then ([] : Str) else _) rest = _
      by_cases h : pstrip seg.text = []
      · rw [if_pos h, if_pos h, ih]
      · rw [if_neg h, if_neg h, ih]
        simp
    rw [hbody]
    by_cases h : pstrip seg.text = []
    · rw [if_pos h, if_pos h, ih]
      simp
    · rw [if_neg h, if_neg h, ih]
      simp

/-- Parsing the rendered body recovers exactly the non-empty segments,
as `(speaker, stripped text)` with zeroed timestamps. -/
theorem parse_saveAsTextBody (segs : List Segment)
    (hseg : ∀ seg ∈ segs, pstrip seg.text ≠ [] →
      '\n' ∉ seg.speaker ∧ findCC seg.speaker = none ∧
      pstrip seg.speaker = seg.speaker ∧ '\n' ∉ seg.text) :
    (splitOnChar '\n' (saveAsTextBody segs)).filterMap parseLine =
      (segs.filter (fun s => !(pstrip s.text).isEmpty)).map
        (fun s => (⟨s.speaker, pstrip s.text, 0, 0⟩ : Segment)) := by
  induction segs with
  | nil => rfl
  | cons seg rest ih =>
    have hrest := ih (fun s hs => hseg s (List.mem_cons_of_mem seg hs))
    have hbody : saveAsTextBody (seg :: rest) =
        (if pstrip seg.text = [] then ([] : Str)
          else ('[' :: seg.speaker ++ strOf "]: " ++ pstrip seg.text ++ ['\n']))
          ++ saveAsTextBody rest := by
      show List.foldl _ (if pstrip seg.text = [] then ([] : Str) else _) rest = _
      by_cases h : pstrip seg.text = []
      · rw [if_pos h, if_pos h, saveAsTextBody_acc]
      · rw [if_neg h, if_neg h, saveAsTextBody_acc]
        simp
    by_cases h : pstrip seg.text = []
    · rw [hbody, if_pos h, List.nil_append,
        List.filter_cons_of_neg (by simp [h]), hrest]
    · obtain ⟨hnl, hcc, hsps, htnl⟩ := hseg seg (List.mem_cons_self seg rest) h
    -- the rendered line, written with the separator chars exposed
      have hre : ('[' :: seg.speaker ++ strOf "]: " ++ pstrip seg.text ++ ['\n'])
          ++ saveAsTextBody rest =
          ('[' :: seg.speaker ++ ']' :: ':' :: ' ' :: pstrip seg.text) ++
            '\n' :: saveAsTextBody rest := by
        simp [strOf]
      have hnotin : '\n' ∉ ('[' :: seg.speaker ++ ']' :: ':' :: ' ' ::
          pstrip seg.text) := by
        intro hm
        rcases List.mem_cons.mp hm with he | hm
        · cases he
        · rcases List.mem_append.mp hm with hm | hm
          · exact hnl hm
          · rcases List.mem_cons.mp hm with he | hm
            · cases he
            · rcases List.mem_cons.mp hm with he | hm
              · cases he
              · rcases List.mem_cons.mp hm with he | hm
                · cases he
                · exact htnl (mem_pstrip hm)
      rw [hbody, if_neg h, hre, splitOnChar_append hnotin]
      rw [List.filterMap_cons]
      have hline := parseLine_render hcc hsps h (pstrip_idem seg.text)
      rw [hline, hrest, List.filter_cons_of_pos (by simp [h])]
      rfl

/-- Claim C2, counterexample.  A speaker label containing `"]:"` breaks
the round trip: rendering `[A]:B]: hi` and parsing it back yields the
pair `("A", "B]: hi")`, not the original `("A]:B", "hi")`. -/
theorem c2_counterexample :
    (parseTranscriptFile (saveAsTextContent
        ⟨[⟨strOf "A]:B", strOf "hi", 0, 0⟩], none, none⟩
        (strOf "D"))).segments.map (fun s => (s.speaker, s.text)) ≠
      [(strOf "A]:B", strOf "hi")] := by
  decide

/-- Claim C2, amended: the round trip holds for every transcript whose
non-empty segments have a speaker that contains no newline and no
`"]:"` and equals its own strip, and a text containing no newline; the
parsed `(speaker, text)` pairs are then the `(speaker, stripped text)`
pairs of the segments with non-empty trimmed text, in order.  (The date
stamp written into the header contains no `[` and no newline, as
`strftime` output always does.) -/
theorem c2_roundtrip_amended (t : Transcript) (dateStr : Str)
    (hd1 : '[' ∉ dateStr) (hd2 : '\n' ∉ dateStr)
    (hseg : ∀ seg ∈ t.segments, pstrip seg.text ≠ [] →
      '\n' ∉ seg.speaker ∧ findCC seg.speaker = none ∧
      pstrip seg.speaker = seg.speaker ∧ '\n' ∉ seg.text) :
    (parseTranscriptFile (saveAsTextContent t dateStr)).segments.map
        (fun s => (s.speaker, s.text)) =
      (t.segments.filter (fun s => !(pstrip s.text).isEmpty)).map
        (fun s => (s.speaker, pstrip s.text)) := by
  have hcontent : saveAsTextContent t dateStr =
      strOf "Meeting Transcript" ++ '\n' ::
        ((strOf "Date: " ++ dateStr) ++ '\n' ::
          (([] : Str) ++ '\n' :: saveAsTextBody t.segments)) := by
    show strOf "Meeting Transcript\n" ++ strOf "Date: " ++ dateStr ++
        strOf "\n\n" ++ saveAsTextBody t.segments = _
    simp [strOf]
  have hdateline : ('\n' : Char) ∉ strOf "Date: " ++ dateStr := by
    intro hm
    rcases List.mem_append.mp hm with h | h
    · exact absurd h (by decide)
    · exact hd2 h
  have hs1 : splitOnChar '\n' (saveAsTextContent t dateStr) =
      strOf "Meeting Transcript" :: (strOf "Date: " ++ dateStr) :: ([] : Str)
        :: splitOnChar '\n' (saveAsTextBody t.segments) := by
    rw [hcontent, splitOnChar_append (by decide),
      splitOnChar_append hdateline, splitOnChar_append (by simp)]
  have hdate_none : parseLine (strOf "Date: " ++ dateStr) = none := by
    apply parseLine_no_bracket
    intro hm
    rcases List.mem_append.mp hm with h | h
    · exact absurd h (by decide)
    · exact hd1 h
  show ((splitOnChar '\n' (saveAsTextContent t dateStr)).filterMap
      parseLine).map (fun s => (s.speaker, s.text)) = _
  rw [hs1, List.filterMap_cons, List.filterMap_cons, List.filterMap_cons]
  rw [show parseLine (strOf "Meeting Transcript") = none from by decide]
  rw [hdate_none]
  rw [show parseLine ([] : Str) = none from rfl]
  rw [parse_saveAsTextBody t.segments hseg]
  rw [List.map_map]
  rfl

/-- Claim C2, witness for the amended round trip at a concrete
transcript (one padded-text segment that survives, one empty-text
segment that is dropped). -/
theorem c2_roundtrip_amended_witness :
    (parseTranscriptFile (saveAsTextContent
        ⟨[⟨strOf "Alice", strOf " hi there ", 0, 5⟩,
          ⟨strOf "Bob", [], 1, 2⟩], some 18, none⟩
        (strOf "D"))).segments.map (fun s => (s.speaker, s.text)) =
      [(strOf "Alice", strOf "hi there")] := by
  have h := c2_roundtrip_amended
    ⟨[⟨strOf "Alice", strOf " hi there ", 0, 5⟩,
      ⟨strOf "Bob", [], 1, 2⟩], some 18, none⟩
    (strOf "D") (by decide) (by decide) (by decide)
  rw [h]
  decide

theorem parseLine_shape {line : Str} {seg : Segment}
    (h : parseLine line = some seg) : seg.start = 0 ∧ seg.stop = 0 := by
  unfold parseLine at h
  split at h
  · cases h
  · split at h
    · cases hf : findCC (pstrip line) with
      | some k =>
        rw [hf] at h
        cases h
        exact ⟨rfl, rfl⟩
      | none =>
        rw [hf] at h
        cases h
    · cases h

/-- Claim C6, counterexample.  The claim says the speaker is everything
between the first `[` and the first following `]:`; on the line
`x[A]: hi` that would be `"A"`, but the code slices
`line[1:line.find("]:")]` — from index 1 regardless of where the first
`[` is — and produces `"[A"`. -/
theorem c6_counterexample :
    (parseTranscriptFile (strOf "x[A]: hi")).segments.map Segment.speaker =
      [strOf "[A"] ∧ strOf "[A" ≠ strOf "A" := by
  decide

/-- Claim C6, amended: a stripped line is parsed iff it is non-empty
and contains `[` anywhere and `"]:"` anywhere; the speaker is then the
strip of the slice from index 1 up to the first `"]:"` occurrence
(everything after the first character, not after the first `[`), the
text is the strip of the slice after that occurrence, every parsed
segment carries `start = 0` and `end = 0`, and the reconstructed
duration is 10 times the number of parsed segments. -/
theorem c6_parser_amended (content : Str) :
    (∀ seg ∈ (parseTranscriptFile content).segments,
      seg.start = 0 ∧ seg.stop = 0) ∧
    (parseTranscriptFile content).duration =
      some (10 * (parseTranscriptFile content).segments.length) ∧
    (∀ line ∈ splitOnChar '\n' content,
      (pstrip line = [] → parseLine line = none) ∧
      ('[' ∉ pstrip line → parseLine line = none) ∧
      ((∀ p, ¬ occursAt (pstrip line) p) → parseLine line = none) ∧
      (∀ p, occursAt (pstrip line) p →
        (∀ q < p, ¬ occursAt (pstrip line) q) →
        pstrip line ≠ [] → '[' ∈ pstrip line →
        parseLine line = some ⟨pstrip (((pstrip line).drop 1).take (p - 1)),
          pstrip ((pstrip line).drop (p + 2)), 0, 0⟩)) := by
  refine ⟨?_, rfl, ?_⟩
  · intro seg hseg
    obtain ⟨line, _, hline⟩ := List.mem_filterMap.mp hseg
    exact parseLine_shape hline
  · intro line _
    refine ⟨?_, ?_, ?_, ?_⟩
    · intro h
      simp [parseLine, h]
    · intro h
      unfold parseLine
      by_cases he : pstrip line = []
      · rw [if_pos he]
      · rw [if_neg he, if_neg h]
    · intro h
      have hf : findCC (pstrip line) = none := by
        cases hf : findCC (pstrip line) with
        | none => rfl
        | some p => exact absurd (findCC_some hf).1 (h p)
      unfold parseLine
      by_cases he : pstrip line = []
      · rw [if_pos he]
      · by_cases hb : '[' ∈ pstrip line
        · rw [if_neg he, if_pos hb, hf]
        · rw [if_neg he, if_neg hb]
    · intro p hocc hmin hne hbr
      have hf : findCC (pstrip line) = some p := findCC_eq_some_of_min hocc hmin
      unfold parseLine
      rw [if_neg hne, if_pos hbr, hf]

/-- Claim C6, witness: the amended per-line contract applied to the
line `[B]: ok` with the `"]:"` occurrence at position 2. -/
theorem c6_parser_amended_witness :
    parseLine (strOf "[B]: ok") = some ⟨strOf "B", strOf "ok", 0, 0⟩ := by
  have h := ((c6_parser_amended (strOf "[B]: ok")).2.2 (strOf "[B]: ok")
    (by decide)).2.2.2 2 (by decide) (by decide) (by decide) (by decide)
  rw [h]
  decide

/-! ## Claim C9: section omission in the renderers -/

theorem mem_ite_nil_left {c : Prop} [Decidable c] {A : List Str} {x : Str}
    (h : x ∈ if c then ([] : List Str) else A) : ¬c ∧ x ∈ A := by
  split at h
  · cases h
  · rename_i hc
    exact ⟨hc, h⟩

theorem ne_of_mem_not_mem {c : Char} {a b : Str} (h1 : c ∈ a) (h2 : c ∉ b) :
    a ≠ b := fun he => h2 (he ▸ h1)

theorem joinSep_head_le (sep x : Str) (xs : List Str) :
    x.length ≤ (joinSep sep (x :: xs)).length := by
  cases xs with
  | nil => exact Nat.le_refl _
  | cons y ys =>
    show x.length ≤ (x ++ sep ++ joinSep sep (y :: ys)).length
    simp

/-- The summary text is empty or longer than 20 characters: it is a
join of sentences that each survived the `len > 20` filter. -/
theorem summaryText_long (enum : List Str → List Str) (segs : List Segment)
    (h : (extractSummaryData enum segs).summaryText ≠ []) :
    20 < (extractSummaryData enum segs).summaryText.length := by
  have heq : (extractSummaryData enum segs).summaryText =
      joinSep [' ']
        (((substantialSentences
            (joinSep [' '] (extractLoop segs).allText)).take 5).take 3) := by
    show generateSummaryText (extractLoop segs).allText = _
    unfold generateSummaryText
    dsimp only
    rw [foldl_limit3]
    simp
  rw [heq] at h ⊢
  cases hc : ((substantialSentences
      (joinSep [' '] (extractLoop segs).allText)).take 5).take 3 with
  | nil => rw [hc] at h; exact absurd rfl h
  | cons s0 rest =>
    have hs0 : s0 ∈ substantialSentences
        (joinSep [' '] (extractLoop segs).allText) := by
      have : s0 ∈ ((substantialSentences
          (joinSep [' '] (extractLoop segs).allText)).take 5).take 3 := by
        rw [hc]
        exact List.mem_cons_self _ _
      exact List.mem_of_mem_take (List.mem_of_mem_take this)
    have hlen : 20 < s0.length := by
      have := (List.mem_filter.mp hs0).2
      simpa using this
    exact Nat.lt_of_lt_of_le hlen (joinSep_head_le [' '] s0 rest)

/-- Every character of every token produced by the tokenizer is a word
character. -/
theorem tokenizeAux_chars :
    ∀ (l cur : Str), (∀ c ∈ cur, isWordChar c = true) →
      ∀ w ∈ tokenizeAux l cur, ∀ c ∈ w, isWordChar c = true := by
  intro l
  induction l with
  | nil =>
    intro cur hcur w hw c hc
    unfold tokenizeAux at hw
    split at hw
    · cases hw
    · rw [List.mem_singleton.mp hw] at hc
      exact hcur c (List.mem_reverse.mp hc)
  | cons x xs ih =>
    intro cur hcur w hw c hc
    unfold tokenizeAux at hw
    split at hw
    · rename_i hx
      refine ih (x :: cur) ?_ w hw c hc
      intro d hd
      rcases List.mem_cons.mp hd with rfl | hd
      · exact hx
      · exact hcur d hd
    · split at hw
      · exact ih [] (by simp) w hw c hc
      · rcases List.mem_cons.mp hw with rfl | hw
        · exact hcur c (List.mem_reverse.mp hc)
        · exact ih [] (by simp) w hw c hc

/-- Every extracted keyword consists of word characters only. -/
theorem keywords_chars (enum : List Str → List Str) (segs : List Segment) :
    ∀ w ∈ (extractSummaryData enum segs).keywords, ∀ c ∈ w,
      isWordChar c = true := by
  intro w hw c hc
  have hw1 : w ∈ extractKeywords (joinSep [' '] (extractLoop segs).allText) :=
    List.mem_of_mem_take hw
  obtain ⟨e, hef, rfl⟩ := List.mem_map.mp hw1
  have heS := (List.mem_filter.mp hef).1
  have heM := (isortDesc_perm _).mem_iff.mp heS
  obtain ⟨k, n⟩ := e
  have htok : k ∈ tokenizeWords
      (lower (joinSep [' '] (extractLoop segs).allText)) :=
    (mem_wordFreq heM).2.2
  exact tokenizeAux_chars _ [] (by simp) k htok c hc

theorem not_mem_joinSep_keywords {kws : List Str} {c : Char}
    (hk : ∀ w ∈ kws, c ∉ w) (hc1 : c ≠ ',') (hc2 : c ≠ ' ') :
    c ∉ joinSep (strOf ", ") kws := by
  induction kws with
  | nil => simp [joinSep]
  | cons x xs ih =>
    cases xs with
    | nil => exact hk x (List.mem_cons_self x [])
    | cons y ys =>
      show c ∉ x ++ strOf ", " ++ joinSep (strOf ", ") (y :: ys)
      intro hm
      rcases List.mem_append.mp hm with hm | hm
      · rcases List.mem_append.mp hm with hm | hm
        · exact hk x (List.mem_cons_self x _) hm
        · rcases List.mem_cons.mp hm with rfl | hm
          · exact hc1 rfl
          · rcases List.mem_cons.mp hm with rfl | hm
            · exact hc2 rfl
            · cases hm
      · exact ih (fun w hw => hk w (List.mem_cons_of_mem x hw)) hm

/-- A `':'`-free or `'#'`-free string never equals the comma-joined
keyword line, since keywords are word characters only. -/
theorem not_mem_keywords_line (enum : List Str → List Str)
    (segs : List Segment) {c : Char} (hc : isWordChar c = false)
    (hc1 : c ≠ ',') (hc2 : c ≠ ' ') :
    c ∉ joinSep (strOf ", ") (extractSummaryData enum segs).keywords := by
  apply not_mem_joinSep_keywords ?_ hc1 hc2
  intro w hw hcw
  have := keywords_chars enum segs w hw c hcw
  rw [hc] at this
  cases this

/-- Characterization of the lines a string can be in the plain-text
summary: a line that is none of the fixed lines, starts with neither a
`Date`/`Duration` prefix nor indentation, and differs from every
optional section's lines, is not in the output. -/
theorem not_mem_textLines (data : SummaryData) (t : Transcript)
    (dateStr H : Str)
    (h1 : H ≠ strOf "MEETING SUMMARY") (h2 : H ≠ List.replicate 50 '=')
    (h3 : H.head? ≠ some 'D') (h4 : H ≠ []) (h5 : H ≠ strOf "PARTICIPANTS:")
    (h6 : H.head? ≠ some ' ')
    (h7 : data.summaryText ≠ [] → H ≠ strOf "SUMMARY:" ∧ H ≠ data.summaryText)
    (h8 : data.keyPoints ≠ [] → H ≠ strOf "KEY POINTS:")
    (h9 : data.actionItems ≠ [] → H ≠ strOf "ACTION ITEMS:")
    (h10 : data.keywords ≠ [] → H ≠ strOf "TOPICS/KEYWORDS:" ∧
      H ≠ joinSep (strOf ", ") data.keywords) :
    H ∉ textSummaryLines data t dateStr := by
  intro hmem
  unfold textSummaryLines at hmem
  simp only [List.append_assoc, List.cons_append, List.nil_append,
    List.mem_append, List.mem_cons, List.mem_map] at hmem
  rcases hmem with h | h | h | h | h | h | h | h | h | h | h | h
  · exact h1 h
  · exact h2 h
  · exact h3 (by rw [h]; rfl)
  · exact h3 (by rw [h]; rfl)
  · exact h4 h
  · exact h5 h
  · obtain ⟨sp, _, hsp⟩ := h
    exact h6 (by rw [← hsp]; rfl)
  · exact h4 h
  · obtain ⟨hne, hm⟩ := mem_ite_nil_left h
    rcases (by simpa using hm :
        H = strOf "SUMMARY:" ∨ H = data.summaryText ∨ H = []) with h' | h' | h'
    · exact (h7 hne).1 h'
    · exact (h7 hne).2 h'
    · exact h4 h'
  · obtain ⟨hne, hm⟩ := mem_ite_nil_left h
    simp only [List.cons_append, List.nil_append, List.mem_append,
      List.mem_cons, List.mem_map, List.not_mem_nil, or_false] at hm
    rcases hm with h' | h' | h'
    · exact h8 hne h'
    · obtain ⟨p, _, hp⟩ := h'
      exact h6 (by rw [← hp]; rfl)
    · exact h4 h'
  · obtain ⟨hne, hm⟩ := mem_ite_nil_left h
    simp only [List.cons_append, List.nil_append, List.mem_append,
      List.mem_cons, List.mem_map, List.not_mem_nil, or_false] at hm
    rcases hm with h' | h' | h'
    · exact h9 hne h'
    · obtain ⟨p, _, hp⟩ := h'
      exact h6 (by rw [← hp]; rfl)
    · exact h4 h'
  · obtain ⟨hne, hm⟩ := mem_ite_nil_left h
    rcases (by simpa using hm :
        H = strOf "TOPICS/KEYWORDS:" ∨
          H = joinSep (strOf ", ") data.keywords) with h' | h'
    · exact (h10 hne).1 h'
    · exact (h10 hne).2 h'

/-- The Markdown analogue of `not_mem_textLines`. -/
theorem not_mem_mdLines (data : SummaryData) (t : Transcript)
    (dateStr H : Str)
    (h1 : H ≠ strOf "# Meeting Summary") (h3 : H.head? ≠ some '*')
    (h4 : H ≠ []) (h5 : H ≠ strOf "## Participants")
    (h6 : H.head? ≠ some '-')
    (h7 : data.summaryText ≠ [] → H ≠ strOf "## Summary" ∧
      H ≠ data.summaryText)
    (h8 : data.keyPoints ≠ [] → H ≠ strOf "## Key Points")
    (h9 : data.actionItems ≠ [] → H ≠ strOf "## Action Items")
    (h10 : data.keywords ≠ [] → H ≠ strOf "## Topics/Keywords" ∧
      H ≠ joinSep (strOf ", ") data.keywords) :
    H ∉ mdSummaryLines data t dateStr := by
  intro hmem
  unfold mdSummaryLines at hmem
  simp only [List.append_assoc, List.cons_append, List.nil_append,
    List.mem_append, List.mem_cons, List.mem_map] at hmem
  rcases hmem with h | h | h | h | h | h | h | h | h | h | h | h
  · exact h1 h
  · exact h4 h
  · exact h3 (by rw [h]; rfl)
  · exact h3 (by rw [h]; rfl)
  · exact h4 h
  · exact h5 h
  · obtain ⟨sp, _, hsp⟩ := h
    exact h6 (by rw [← hsp]; rfl)
  · exact h4 h
  · obtain ⟨hne, hm⟩ := mem_ite_nil_left h
    rcases (by simpa using hm :
        H = strOf "## Summary" ∨ H = data.summaryText ∨ H = []) with h' | h' | h'
    · exact (h7 hne).1 h'
    · exact (h7 hne).2 h'
    · exact h4 h'
  · obtain ⟨hne, hm⟩ := mem_ite_nil_left h
    simp only [List.cons_append, List.nil_append, List.mem_append,
      List.mem_cons, List.mem_map, List.not_mem_nil, or_false] at hm
    rcases hm with h' | h' | h'
    · exact h8 hne h'
    · obtain ⟨p, _, hp⟩ := h'
      exact h6 (by rw [← hp]; rfl)
    · exact h4 h'
  · obtain ⟨hne, hm⟩ := mem_ite_nil_left h
    simp only [List.cons_append, List.nil_append, List.mem_append,
      List.mem_cons, List.mem_map, List.not_mem_nil, or_false] at hm
    rcases hm with h' | h' | h'
    · exact h9 hne h'
    · obtain ⟨p, _, hp⟩ := h'
      exact h6 (by rw [← hp]; rfl)
    · exact h4 h'
  · obtain ⟨hne, hm⟩ := mem_ite_nil_left h
    rcases (by simpa using hm :
        H = strOf "## Topics/Keywords" ∨
          H = joinSep (strOf ", ") data.keywords) with h' | h'
    · exact (h10 hne).1 h'
    · exact (h10 hne).2 h'

/-- Claim C9, counterexample.  A transcript whose only segment has
empty text reaches the formatter with an empty participants list, yet
the text renderer still emits the `PARTICIPANTS:` header — with nothing
under it (the following line is empty and the output ends there). -/
theorem c9_counterexample :
    textSummaryLines (extractSummaryData id [⟨strOf "A", [], 0, 0⟩])
        ⟨[⟨strOf "A", [], 0, 0⟩], some 7, none⟩ (strOf "D") =
      [strOf "MEETING SUMMARY", List.replicate 50 '=', strOf "Date: D",
       strOf "Duration: 7 seconds", [], strOf "PARTICIPANTS:", []] ∧
    (extractSummaryData id [⟨strOf "A", [], 0, 0⟩]).speakers = [] := by
  exact ⟨by decide, by decide⟩

/-- Claim C9, amended: in both the text and Markdown renderers the
summary, key-points, action-items and keywords sections (header
included) appear exactly when their content is non-empty — but the
participants header is always emitted, even when there are no
participants. -/
theorem c9_sections_amended (enum : List Str → List Str)
    (segs : List Segment) (t : Transcript) (dateStr : Str) :
    strOf "PARTICIPANTS:" ∈
      textSummaryLines (extractSummaryData enum segs) t dateStr ∧
    (strOf "SUMMARY:" ∈
        textSummaryLines (extractSummaryData enum segs) t dateStr ↔
      (extractSummaryData enum segs).summaryText ≠ []) ∧
    (strOf "KEY POINTS:" ∈
        textSummaryLines (extractSummaryData enum segs) t dateStr ↔
      (extractSummaryData enum segs).keyPoints ≠ []) ∧
    (strOf "ACTION ITEMS:" ∈
        textSummaryLines (extractSummaryData enum segs) t dateStr ↔
      (extractSummaryData enum segs).actionItems ≠ []) ∧
    (strOf "TOPICS/KEYWORDS:" ∈
        textSummaryLines (extractSummaryData enum segs) t dateStr ↔
      (extractSummaryData enum segs).keywords ≠ []) ∧
    strOf "## Participants" ∈
      mdSummaryLines (extractSummaryData enum segs) t dateStr ∧
    (strOf "## Summary" ∈
        mdSummaryLines (extractSummaryData enum segs) t dateStr ↔
      (extractSummaryData enum segs).summaryText ≠ []) ∧
    (strOf "## Key Points" ∈
        mdSummaryLines (extractSummaryData enum segs) t dateStr ↔
      (extractSummaryData enum segs).keyPoints ≠ []) ∧
    (strOf "## Action Items" ∈
        mdSummaryLines (extractSummaryData enum segs) t dateStr ↔
      (extractSummaryData enum segs).actionItems ≠ []) ∧
    (strOf "## Topics/Keywords" ∈
        mdSummaryLines (extractSummaryData enum segs) t dateStr ↔
      (extractSummaryData enum segs).keywords ≠ []) := by
  refine ⟨?_, ⟨?_, ?_⟩, ⟨?_, ?_⟩, ⟨?_, ?_⟩, ⟨?_, ?_⟩,
    ?_, ⟨?_, ?_⟩, ⟨?_, ?_⟩, ⟨?_, ?_⟩, ⟨?_, ?_⟩⟩
  · simp [textSummaryLines]
  · intro hmem
    by_contra hc
    have he := hc
    exact not_mem_textLines _ t dateStr _ (by decide) (by decide) (by decide)
      (by decide) (by decide) (by decide)
      (fun hne => absurd he hne) (fun _ => by decide) (fun _ => by decide)
      (fun _ => ⟨by decide, ne_of_mem_not_mem
        (show ':' ∈ strOf "SUMMARY:" by decide)
        (not_mem_keywords_line enum segs (by decide) (by decide)
          (by decide))⟩)
      hmem
  · intro hne
    simp [textSummaryLines, hne]
  · intro hmem
    by_contra hc
    have he := hc
    exact not_mem_textLines _ t dateStr _ (by decide) (by decide) (by decide)
      (by decide) (by decide) (by decide)
      (fun hne => ⟨by decide, fun heq =>
        absurd (summaryText_long enum segs hne) (by rw [← heq]; decide)⟩)
      (fun hne => absurd he hne) (fun _ => by decide)
      (fun _ => ⟨by decide, ne_of_mem_not_mem
        (show ':' ∈ strOf "KEY POINTS:" by decide)
        (not_mem_keywords_line enum segs (by decide) (by decide)
          (by decide))⟩)
      hmem
  · intro hne
    simp [textSummaryLines, hne]
  · intro hmem
    by_contra hc
    have he := hc
    exact not_mem_textLines _ t dateStr _ (by decide) (by decide) (by decide)
      (by decide) (by decide) (by decide)
      (fun hne => ⟨by decide, fun heq =>
        absurd (summaryText_long enum segs hne) (by rw [← heq]; decide)⟩)
      (fun _ => by decide) (fun hne => absurd he hne)
      (fun _ => ⟨by decide, ne_of_mem_not_mem
        (show ':' ∈ strOf "ACTION ITEMS:" by decide)
        (not_mem_keywords_line enum segs (by decide) (by decide)
          (by decide))⟩)
      hmem
  · intro hne
    simp [textSummaryLines, hne]
  · intro hmem
    by_contra hc
    have he := hc
    exact not_mem_textLines _ t dateStr _ (by decide) (by decide) (by decide)
      (by decide) (by decide) (by decide)
      (fun hne => ⟨by decide, fun heq =>
        absurd (summaryText_long enum segs hne) (by rw [← heq]; decide)⟩)
      (fun _ => by decide) (fun _ => by decide)
      (fun hne => absurd he hne)
      hmem
  · intro hne
    simp [textSummaryLines, hne]
  · simp [mdSummaryLines]
  · intro hmem
    by_contra hc
    have he := hc
    exact not_mem_mdLines _ t dateStr _ (by decide) (by decide) (by decide)
      (by decide) (by decide)
      (fun hne => absurd he hne) (fun _ => by decide) (fun _ => by decide)
      (fun _ => ⟨by decide, ne_of_mem_not_mem
        (show '#' ∈ strOf "## Summary" by decide)
        (not_mem_keywords_line enum segs (by decide) (by decide)
          (by decide))⟩)
      hmem
  · intro hne
    simp [mdSummaryLines, hne]
  · intro hmem
    by_contra hc
    have he := hc
    exact not_mem_mdLines _ t dateStr _ (by decide) (by decide) (by decide)
      (by decide) (by decide)
      (fun hne => ⟨by decide, fun heq =>
        absurd (summaryText_long enum segs hne) (by rw [← heq]; decide)⟩)
      (fun hne => absurd he hne) (fun _ => by decide)
      (fun _ => ⟨by decide, ne_of_mem_not_mem
        (show '#' ∈ strOf "## Key Points" by decide)
        (not_mem_keywords_line enum segs (by decide) (by decide)
          (by decide))⟩)
      hmem
  · intro hne
    simp [mdSummaryLines, hne]
  · intro hmem
    by_contra hc
    have he := hc
    exact not_mem_mdLines _ t dateStr _ (by decide) (by decide) (by decide)
      (by decide) (by decide)
      (fun hne => ⟨by decide, fun heq =>
        absurd (summaryText_long enum segs hne) (by rw [← heq]; decide)⟩)
      (fun _ => by decide) (fun hne => absurd he hne)
      (fun _ => ⟨by decide, ne_of_mem_not_mem
        (show '#' ∈ strOf "## Action Items" by decide)
        (not_mem_keywords_line enum segs (by decide) (by decide)
          (by decide))⟩)
      hmem
  · intro hne
    simp [mdSummaryLines, hne]
  · intro hmem
    by_contra hc
    have he := hc
    exact not_mem_mdLines _ t dateStr _ (by decide) (by decide) (by decide)
      (by decide) (by decide)
      (fun hne => ⟨by decide, fun heq =>
        absurd (summaryText_long enum segs hne) (by rw [← heq]; decide)⟩)
      (fun _ => by decide) (fun _ => by decide)
      (fun hne => absurd he hne)
      hmem
  · intro hne
    simp [mdSummaryLines, hne]

/-- Claim C9, witness: the amended theorem applied at a concrete
transcript with one substantial sentence — the summary section header
is emitted because the summary text is non-empty. -/
theorem c9_sections_amended_witness :
    strOf "SUMMARY:" ∈ textSummaryLines
      (extractSummaryData id
        [⟨strOf "A", strOf "This sentence is long enough to keep.", 0, 0⟩])
      ⟨[⟨strOf "A", strOf "This sentence is long enough to keep.", 0, 0⟩],
        some 7, none⟩
      (strOf "D") :=
  ((c9_sections_amended id
    [⟨strOf "A", strOf "This sentence is long enough to keep.", 0, 0⟩]
    ⟨[⟨strOf "A", strOf "This sentence is long enough to keep.", 0, 0⟩],
      some 7, none⟩
    (strOf "D")).2.1).mpr (by decide)

end Notetaker
